import Mathlib

/-!
Verification development for the DoubleX extension-unpacking core
(`src/unpack_extension.py`).

The Python source is shallowly embedded: pure helpers become Lean
functions on `String` / `List Char` (Python `bytes` and `str` are both
modelled as `String`; the lossy `decode("utf8", "ignore")` step is the
identity in this model), a zip archive becomes an association list of
entry names to contents, and the multiprocessing distributor becomes a
small-step transition relation.  External collaborators that the source
calls as black boxes (`ZipFile`, `json.loads`/`dumps`, `BeautifulSoup`,
`urljoin`, the `js-beautify` formatter, `os.path.exists`, and CPython's
unspecified `set` iteration order) are parameters gathered in the
`Externals` structure, so every theorem quantifies over their behaviour.
-/

namespace DoubleX

/-- Python substring containment (`pat in s`), on character lists. -/
def isSubstr (pat : List Char) : List Char → Bool
  | [] => pat.isEmpty
  | c :: rest => pat.isPrefixOf (c :: rest) || isSubstr pat rest

/-- Python substring containment on strings (`pat in s`). -/
def substrB (pat s : String) : Bool := isSubstr pat.data s.data

/-- Python `str.lower` (ASCII case folding suffices for the paths and
patterns this tool handles). -/
def pyLower (s : String) : String := ⟨s.data.map Char.toLower⟩

/-- Python `str.endswith`. -/
def pyEndsWith (s suffixStr : String) : Bool := suffixStr.data.isSuffixOf s.data

/-- Python `str.startswith`. -/
def pyStartsWith (s start : String) : Bool := start.data.isPrefixOf s.data

/-- Fuelled scan of Python `replace`; the wrapper below supplies
`s.length` as fuel, which never runs out when `old` is non-empty, so
the zero-fuel arm is unreachable from the wrapper. -/
def pyReplaceF : Nat → List Char → List Char → List Char → List Char
  | 0, s, _, _ => s
  | fuel + 1, s, old, new =>
    match s with
    | [] => []
    | c :: rest =>
      if old.isPrefixOf (c :: rest) then
        new ++ pyReplaceF fuel ((c :: rest).drop old.length) old new
      else
        c :: pyReplaceF fuel rest old new

/-- Python `bytes.replace`/`str.replace`: replaces non-overlapping
occurrences of `old` left to right.  The source only calls it with a
non-empty `old`; for `old = []` this model returns `s` unchanged. -/
def pyReplace (s old new : List Char) : List Char :=
  if old = [] then s else pyReplaceF s.length s old new

/-- Python `s.split(sep)[0]` for a non-empty separator: the prefix of
`s` before the first occurrence of `sep`. -/
def takeUntilSub (sep : List Char) : List Char → List Char
  | [] => []
  | c :: rest =>
    if sep.isPrefixOf (c :: rest) then [] else c :: takeUntilSub sep rest

/-- Python `s.split("?")[0].split("#")[0]` as used on script/page paths
(source lines 159 and 210/244). -/
def stripFragment (s : String) : String :=
  ⟨(s.data.takeWhile (fun c => c != '?')).takeWhile (fun c => c != '#')⟩

/-- Characters stripped by `lstrip("./")` in the source (line 60):
Python strips every leading character belonging to the set. -/
def dotSlashChar (c : Char) : Bool := c == '.' || c == '/'

/-- Name normalisation of `read_from_zip` (source line 60):
`filename.lstrip("./").split("?")[0]`. -/
def normalizeZipName (s : String) : String :=
  ⟨(s.data.dropWhile dotSlashChar).takeWhile (fun c => c != '?')⟩

/-- A zip archive: the ordered entry list of `infolist()` with the raw
bytes of each member.  `filename` is the archive's own path. -/
structure Zip where
  filename : String
  entries : List (String × String)

/-- Entry names in archive order (`zf.namelist()`). -/
def Zip.namelist (zf : Zip) : List String := zf.entries.map Prod.fst

/-- Exact-name read (`zf.read(name)`), `none` when the member is absent
(Python raises `KeyError`).  `ZipFile` resolves duplicate names through
its name-to-info dict, in which the last entry wins, hence the
`reverse`. -/
def Zip.readEntry (zf : Zip) (n : String) : Option String :=
  (zf.entries.reverse.find? (fun e => e.1 == n)).map Prod.snd

/-- The lowercase-name-to-actual-name index built in the `KeyError`
handler of `read_from_zip` (source lines 67-69); later entries
overwrite earlier ones in the Python dict, hence the `reverse`. -/
def Zip.lowerActual (zf : Zip) (key : String) : Option String :=
  (zf.entries.reverse.find? (fun e => pyLower e.1 == key)).map Prod.fst

/-- Source `read_from_zip` (lines 57-77): normalise the requested name,
try an exact read, fall back to the case-insensitive index, and return
empty bytes when the member is still missing. -/
def read_from_zip (zf : Zip) (filename : String) : String :=
  match zf.readEntry (normalizeZipName filename) with
  | some content => content
  | none =>
    match zf.lowerActual (pyLower (normalizeZipName filename)) with
    | some actual => (zf.readEntry actual).getD ""
    | none => ""

/-- Modelled from the words of claim C6: the same lookup pipeline, but
the requested name is normalised by stripping one leading `./` prefix
(rather than the source's `lstrip("./")`) and the trailing query. -/
def read_from_zip_claim (zf : Zip) (filename : String) : String :=
  let f0 : String :=
    if pyStartsWith filename "./" then ⟨filename.data.drop 2⟩ else filename
  let f : String := ⟨f0.data.takeWhile (fun c => c != '?')⟩
  match zf.readEntry f with
  | some content => content
  | none =>
    match zf.lowerActual (pyLower f) with
    | some actual => (zf.readEntry actual).getD ""
    | none => ""

/-- Scans for the closing `]` of a glob character class, returning the
class body and the remaining pattern (`pattern.find(']', j)` in
`fnmatch.translate`). -/
def findClose : List Char → Option (List Char × List Char)
  | [] => none
  | c :: rest =>
    if c = ']' then some ([], rest)
    else (findClose rest).map (fun p => (c :: p.1, p.2))

theorem findClose_length : ∀ {l body rest : List Char},
    findClose l = some (body, rest) → rest.length < l.length := by
  intro l
  induction l with
  | nil => intro body rest h; simp [findClose] at h
  | cons c cs ih =>
    intro body rest h
    simp only [findClose] at h
    split at h
    · simp only [Option.some.injEq, Prod.mk.injEq] at h
      obtain ⟨h1, h2⟩ := h
      subst h2
      simp
    · cases hfc : findClose cs with
      | none => rw [hfc] at h; simp at h
      | some p =>
        rw [hfc] at h
        simp only [Option.map_some', Option.some.injEq, Prod.mk.injEq] at h
        have := @ih p.1 p.2 (by rw [hfc])
        obtain ⟨h1, h2⟩ := h
        subst h2
        simp only [List.length_cons]
        omega

/-- Splits off a glob character-class body after the optional leading
`!`; a `]` that appears first is an ordinary class member
(`fnmatch.translate` semantics). -/
def classSplit (body : List Char) : Option (List Char × List Char) :=
  match body with
  | c :: rest =>
    if c = ']' then (findClose rest).map (fun p => (']' :: p.1, p.2))
    else findClose (c :: rest)
  | [] => none

theorem classSplit_length {body cls rest : List Char}
    (h : classSplit body = some (cls, rest)) : rest.length < body.length := by
  cases body with
  | nil => simp [classSplit] at h
  | cons c cs =>
    simp only [classSplit] at h
    split at h
    · cases hfc : findClose cs with
      | none => rw [hfc] at h; simp at h
      | some p =>
        rw [hfc] at h
        simp only [Option.map_some', Option.some.injEq, Prod.mk.injEq] at h
        have := @findClose_length cs p.1 p.2 hfc
        obtain ⟨h1, h2⟩ := h
        subst h2
        simp only [List.length_cons]
        omega
    · exact findClose_length h

/-- One token of a compiled glob pattern. -/
inductive GlobTok
  | star
  | anyCh
  | lit (c : Char)
  | cls (neg : Bool) (body : List Char)

/-- Fuelled glob tokeniser; the wrapper below supplies `p.length` as
fuel, which never runs out because every step consumes at least one
pattern character, so the zero-fuel arm is unreachable. -/
def globToksF : Nat → List Char → List GlobTok
  | 0, _ => []
  | fuel + 1, p =>
    match p with
    | [] => []
    | c :: rest =>
      if c = '*' then .star :: globToksF fuel rest
      else if c = '?' then .anyCh :: globToksF fuel rest
      else if c = '[' then
        let nb : Bool × List Char :=
          match rest with
          | '!' :: r => (true, r)
          | _ => (false, rest)
        match classSplit nb.2 with
        | none => .lit '[' :: globToksF fuel rest
        | some (cls, after) => .cls nb.1 cls :: globToksF fuel after
      else .lit c :: globToksF fuel rest

/-- Compiles a glob pattern into tokens, mirroring `fnmatch.translate`:
`*`, `?`, `[...]` classes with optional `!` negation and a literal `]`
first member; a `[` with no closing `]` is a literal `[`. -/
def globToks (p : List Char) : List GlobTok := globToksF p.length p

/-- Membership of a character in a glob class body, with `a-b` ranges
as in the regular expression `fnmatch.translate` produces. -/
def classMem (c : Char) : List Char → Bool
  | a :: '-' :: b :: rest =>
    (decide (a ≤ c) && decide (c ≤ b)) || classMem c rest
  | a :: rest => (c == a) || classMem c rest
  | [] => false

/-- Fuelled glob matcher; the wrapper below supplies
`ts.length + n.length + 1` as fuel, which never runs out because every
step shrinks the pattern or the name, so the zero-fuel arm is
unreachable. -/
def globMatchF : Nat → List GlobTok → List Char → Bool
  | 0, _, _ => false
  | fuel + 1, ts0, n =>
    match ts0 with
    | [] => n.isEmpty
    | .star :: ts =>
      globMatchF fuel ts n ||
        (match n with
         | [] => false
         | _ :: nr => globMatchF fuel (.star :: ts) nr)
    | .anyCh :: ts =>
      (match n with
       | [] => false
       | _ :: nr => globMatchF fuel ts nr)
    | .lit c :: ts =>
      (match n with
       | [] => false
       | d :: nr => c == d && globMatchF fuel ts nr)
    | .cls neg body :: ts =>
      (match n with
       | [] => false
       | d :: nr => (classMem d body != neg) && globMatchF fuel ts nr)

/-- Matches a tokenised glob pattern against a name (anchored at both
ends, as `fnmatch` is). -/
def globMatchToks (ts : List GlobTok) (n : List Char) : Bool :=
  globMatchF (ts.length + n.length + 1) ts n

/-- Source `fnmatch.fnmatch(name, pattern)`; `os.path.normcase` is the
identity on POSIX, so no case folding happens. -/
def fnmatchB (name pattern : String) : Bool :=
  globMatchToks (globToks pattern.data) name.data

/-- An element of a manifest's `content_scripts` list: a JSON object
with its `js` list (absent `js` is the empty list), or a non-object
value, which the source skips (line 131). -/
inductive CSEntry
  | dict (js : List String)
  | nonDict

/-- An element of `background.scripts`: a string, or a non-string
value, which the source skips (line 152). -/
inductive BgItem
  | str (s : String)
  | nonStr

/-- The manifest's `background` object.  `page` and `service_worker`
are `none` when absent; a non-string `service_worker` is also `none`
(the source's `isinstance` check at line 183 skips it). -/
structure Background where
  scripts : List BgItem
  page : Option String
  service_worker : Option String

/-- A v3 `web_accessible_resources` rule object; `resources` is `none`
when the key is absent (skipped at line 232). -/
structure WarEntry where
  resources : Option (List String)

/-- An element of `web_accessible_resources`: a glob string (the v2
shape) or a rule object (the v3 shape). -/
inductive WarDecl
  | pat (s : String)
  | entry (e : WarEntry)

/-- The parsed manifest fields this core reads.  `manifest_version` is
`none` when absent (the source defaults it to `-1`, line 275); a
falsy or non-dict `background` is `none`, which preserves behaviour:
v2/v3 background extraction skips it (lines 145, 178) and the wars
functions resolve its `page` to `None` (lines 198-200, 227-229). -/
structure Manifest where
  manifest_version : Option Int
  theme : Bool
  content_scripts : List CSEntry
  background : Option Background
  web_accessible_resources : Option (List WarDecl)

/-- A parsed `<script>` element found by `soup.find_all("script")`:
`src` is the attribute when present, `string` is the inline body
(`none` when BeautifulSoup reports no string). -/
structure ScriptElem where
  src : Option String
  string : Option String

/-- The external collaborators of the pipeline, treated as black
boxes: archive opening, JSON, HTML parsing, URL joining, the
beautifier, dict formatting, the filesystem, and CPython's
unspecified `set` iteration order (applied to the insertion-ordered
element list of a set).  Producing them as parameters lets every
theorem quantify over their behaviour. -/
structure Externals where
  zipOpenF : String → Option Zip
  jsonParse : String → Option Manifest
  jsonDump : Manifest → String
  soup : String → List ScriptElem
  uj : String → String → String
  bf : String → String
  bgRepr : Background → String
  setIterWl : List String → List String
  setIterScripts : List String → List String
  fsExists : String → Bool

/-- The script filter of `pack_and_beautify` (source lines 103-108,
including the duplicated `https://` test). -/
def skipScript (script : String) : Bool :=
  substrB "jquery" (pyLower script) ||
    !pyEndsWith script ".js" ||
    pyStartsWith script "https://" ||
    pyStartsWith script "https://" ||
    substrB "jq.min.js" (pyLower script) ||
    substrB "jq.js" (pyLower script)

/-- The byte scrub of `pack_and_beautify` (source lines 117-118):
`content.replace(b"use strict", b"").replace(b"...", b"")`, followed
by the (here identity) `decode("utf8", "ignore")`. -/
def cleanContent (raw : String) : String :=
  ⟨pyReplace (pyReplace raw.data ("use strict").data []) ("...").data []⟩

/-- What one script contributes to the output of `pack_and_beautify`
(source lines 102-119): nothing when filtered out or when its archive
content is empty, otherwise a tagged, scrubbed, beautified block. -/
def scriptContribution (E : Externals) (zf : Zip) (script : String) : String :=
  if skipScript script then ""
  else if read_from_zip zf script = "" then ""
  else
    "// New file: " ++ script ++ "\n" ++
      E.bf (cleanContent (read_from_zip zf script)) ++ "\n"

/-- Source `pack_and_beautify` (lines 97-121): concatenation of the
per-script contributions in list order. -/
def pack_and_beautify (E : Externals) (zf : Zip) : List String → String
  | [] => ""
  | s :: rest => scriptContribution E zf s ++ pack_and_beautify E zf rest

/-- The ordered-deduplicating append loop used throughout the source
(`if script not in all_scripts: all_scripts.append(script)`). -/
def dedupAppend (acc : List String) : List String → List String
  | [] => acc
  | x :: xs =>
    if x ∈ acc then dedupAppend acc xs else dedupAppend (acc ++ [x]) xs

/-- Modelled from the spec's words: first-occurrence deduplication in
iteration order (later duplicates dropped). -/
def firstOccurrenceDedup : List String → List String
  | [] => []
  | x :: xs => x :: firstOccurrenceDedup (xs.filter (fun y => y != x))
  termination_by l => l.length
  decreasing_by
    simp only [List.length_cons]
    exact Nat.lt_succ_of_le (List.length_filter_le _ _)

/-- The `js` lists of the object-shaped `content_scripts` groups, in
iteration order with duplicates kept. -/
def jsLists (cs : List CSEntry) : List String :=
  cs.flatMap (fun e => match e with | .dict js => js | .nonDict => [])

/-- The `all_scripts` list built by `get_all_content_scripts` (source
lines 129-135): groups in order, non-dict groups skipped, each `js`
entry appended if not already present. -/
def content_scripts_list (cs : List CSEntry) : List String :=
  cs.foldl
    (fun acc e =>
      match e with
      | .nonDict => acc
      | .dict js => dedupAppend acc js)
    []

/-- Source `get_all_content_scripts` (lines 124-137). -/
def get_all_content_scripts (E : Externals) (m : Manifest) (zf : Zip) : String :=
  pack_and_beautify E zf (content_scripts_list m.content_scripts)

/-- The string items of a `background.scripts` list, in order. -/
def bgStrs (items : List BgItem) : List String :=
  items.filterMap (fun it => match it with | .str s => some s | .nonStr => none)

/-- The `all_scripts` list of `get_all_background_scripts_v2` (source
lines 148-165): the declared `scripts` (strings only, deduplicated),
then — when a truthy `page` is declared — every `<script src>` of the
parsed page, resolved with `urljoin(page, src)` and deduplicated. -/
def background_v2_scripts (E : Externals) (bg : Background) (zf : Zip) : List String :=
  let base :=
    bg.scripts.foldl
      (fun acc it =>
        match it with
        | .str s => if s ∈ acc then acc else acc ++ [s]
        | .nonStr => acc)
      []
  match bg.page with
  | none => base
  | some p =>
    if p = "" then base
    else
      (E.soup (read_from_zip zf (stripFragment p))).foldl
        (fun acc el =>
          match el.src with
          | some s =>
            let sp := E.uj p s
            if sp ∈ acc then acc else acc ++ [sp]
          | none => acc)
        base

/-- The `inline_scripts` accumulator of `get_all_background_scripts_v2`
(source lines 166-168): inline bodies of the background page, each
tagged with `"// New inline (from %s)" % background` — note the format
argument is the background dict itself, modelled by `E.bgRepr`.  The
source builds this string and then drops it: line 170 returns only the
packed external scripts. -/
def background_v2_inline (E : Externals) (bg : Background) (zf : Zip) : String :=
  match bg.page with
  | none => ""
  | some p =>
    if p = "" then ""
    else
      (E.soup (read_from_zip zf (stripFragment p))).foldl
        (fun acc el =>
          match el.src with
          | some _ => acc
          | none =>
            match el.string with
            | some body =>
              if body = "" then acc
              else
                acc ++ "// New inline (from " ++ E.bgRepr bg ++ ")\n" ++
                  E.bf body ++ "\n"
            | none => acc)
        ""

/-- Source `get_all_background_scripts_v2` (lines 140-170).  The
return value packs only `all_scripts`; the inline accumulator above
never reaches it. -/
def get_all_background_scripts_v2 (E : Externals) (m : Manifest) (zf : Zip) : String :=
  match m.background with
  | none => ""
  | some bg => pack_and_beautify E zf (background_v2_scripts E bg zf)

/-- Source `get_all_background_scripts_v3` (lines 173-187): the single
`service_worker` path when it is a string. -/
def get_all_background_scripts_v3 (E : Externals) (m : Manifest) (zf : Zip) : String :=
  match m.background with
  | none => ""
  | some bg =>
    match bg.service_worker with
    | some s => pack_and_beautify E zf [s]
    | none => pack_and_beautify E zf []

/-- The declared background page as the wars functions compute it
(source lines 197-200 and 226-229): `manifest.get("background",
{}).get("page")` with `AttributeError` mapped to `None`. -/
def bgPageOf (m : Manifest) : Option String :=
  m.background.bind (fun bg => bg.page)

/-- The v2 `web_accessible_resources` pattern list: the source iterates
the manifest list itself (line 202).  A non-string element would raise
`TypeError` inside `fnmatch` there; manifests containing one are
outside this model, so object elements are dropped. -/
def war_v2_patterns (decls : List WarDecl) : List String :=
  decls.filterMap (fun d => match d with | .pat s => some s | .entry _ => none)

/-- The v3 `whitelisted_list` set in insertion order (source lines
230-234): the `resources` lists of the rule objects, flattened and
deduplicated.  A string element is skipped by the `'resources' in el`
test unless its text contains `"resources"`, in which case the source
would raise `TypeError`; such manifests are outside this model. -/
def war_v3_whitelist (decls : List WarDecl) : List String :=
  decls.foldl
    (fun acc d =>
      match d with
      | .entry e =>
        match e.resources with
        | some rs => rs.foldl (fun a r => if r ∈ a then a else a ++ [r]) acc
        | none => acc
      | .pat _ => acc)
    []

/-- Whether one archive entry passes the wars scan condition for one
pattern (source lines 203-204 and 237-238). -/
def warCond (m : Manifest) (f pattern : String) : Bool :=
  fnmatchB f pattern && substrB ".htm" f && (bgPageOf m != some f)

/-- The scan occurrences of `get_wars_v2` (source lines 201-204): one
occurrence of `contained_file` per matching pattern, patterns taken
from the manifest list in order; the inner loop has no `break`, so a
file matching several patterns is scanned several times. -/
def war_v2_scanned (m : Manifest) (zf : Zip) : List String :=
  match m.web_accessible_resources with
  | none => []
  | some decls =>
    zf.namelist.flatMap
      (fun f =>
        (war_v2_patterns decls).filterMap
          (fun pat => if warCond m f pat then some f else none))

/-- The scan occurrences of `get_wars_v3` (source lines 235-238);
patterns come from the `whitelisted_list` set, iterated in the
runtime's order `E.setIterWl`. -/
def war_v3_scanned (E : Externals) (m : Manifest) (zf : Zip) : List String :=
  match m.web_accessible_resources with
  | none => []
  | some decls =>
    zf.namelist.flatMap
      (fun f =>
        (E.setIterWl (war_v3_whitelist decls)).filterMap
          (fun pat => if warCond m f pat then some f else none))

/-- One scanned file's contribution to the wars accumulators (the body
of the scan loops, source lines 205-214 and 239-248): `<script src>`
values are query/fragment-stripped, resolved against the file and
added to the `all_scripts` set (insertion list here), and truthy
inline bodies are appended to `war_scripts` tagged with the file
name. -/
def warFileStep (E : Externals) (zf : Zip) (acc : List String × String)
    (f : String) : List String × String :=
  (E.soup ((zf.readEntry f).getD "")).foldl
    (fun acc el =>
      match el.src with
      | some s =>
        let sp := E.uj f (stripFragment s)
        (if sp ∈ acc.1 then acc.1 else acc.1 ++ [sp], acc.2)
      | none =>
        match el.string with
        | some body =>
          if body = "" then acc
          else
            (acc.1,
              acc.2 ++ "// New inline (from " ++ f ++ ")\n" ++
                E.bf body ++ "\n")
        | none => acc)
    acc

/-- The shared scan of `get_wars_v2`/`get_wars_v3` over the scan
occurrences, producing the script set's insertion list and the inline
accumulator. -/
def warScanFold (E : Externals) (zf : Zip) (occ : List String) :
    List String × String :=
  occ.foldl (warFileStep E zf) ([], "")

/-- Source `get_wars_v2` (lines 190-216): inline fragments first, then
the packed script set, iterated in the runtime's order. -/
def get_wars_v2 (E : Externals) (m : Manifest) (zf : Zip) : String :=
  let sc := warScanFold E zf (war_v2_scanned m zf)
  sc.2 ++ pack_and_beautify E zf (E.setIterScripts sc.1)

/-- Source `get_wars_v3` (lines 219-250): inline fragments first, then
the packed script set, iterated in the runtime's order. -/
def get_wars_v3 (E : Externals) (m : Manifest) (zf : Zip) : String :=
  let sc := warScanFold E zf (war_v3_scanned E m zf)
  sc.2 ++ pack_and_beautify E zf (E.setIterScripts sc.1)

/-- Python `os.path.basename` for forward-slash paths. -/
def basenameOf (p : String) : String :=
  ⟨(p.data.reverse.takeWhile (fun c => c != '/')).reverse⟩

/-- Source line 262: `os.path.basename(extension_crx).split('.crx')[0]`. -/
def extensionIdOf (p : String) : String :=
  ⟨takeUntilSub (".crx").data (basenameOf p).data⟩

/-- Python `os.path.join` for the simple relative-component case used
here. -/
def joinPath (a b : String) : String := a ++ "/" ++ b

/-- A filesystem side effect of `unpack_extension`. -/
inductive Effect
  | mkdir (path : String)
  | writeFile (path : String) (content : String)
  deriving DecidableEq

/-- Source `unpack_extension` (lines 253-306), as the list of
filesystem effects it performs: empty on the three skip paths (archive
or manifest unreadable, `theme` present, `manifest_version` outside
{2, 3}); otherwise the conditional `makedirs` followed by the four
output files. -/
def unpack_extension (E : Externals) (extension_crx dest : String) : List Effect :=
  let destDir := joinPath dest (extensionIdOf extension_crx)
  match E.zipOpenF extension_crx with
  | none => []
  | some zf =>
    match E.jsonParse (read_from_zip zf "manifest.json") with
    | none => []
    | some m =>
      if m.theme then []
      else
        let mv := m.manifest_version.getD (-1)
        if mv ≠ 2 ∧ mv ≠ 3 then []
        else
          (if E.fsExists destDir then [] else [Effect.mkdir destDir]) ++
            [Effect.writeFile (joinPath destDir "manifest.json") (E.jsonDump m),
             Effect.writeFile (joinPath destDir "contentscript.js")
               (get_all_content_scripts E m zf),
             Effect.writeFile (joinPath destDir "background.js")
               (if mv = 2 then get_all_background_scripts_v2 E m zf
                else get_all_background_scripts_v3 E m zf),
             Effect.writeFile (joinPath destDir "wars.js")
               (if mv = 2 then get_wars_v2 E m zf else get_wars_v3 E m zf)]

/-- The phase of one consumer process.  An iteration of the consumer
loop (source lines 324-336) touches shared state three times: the
synchronized `queue.get()`, then — after the process-local
`unpack_extension` call — the two halves of `counter.value += 1` on the
`multiprocessing.Value`: a lock-protected read of `counter.value` and a
lock-protected write of the incremented value.  The read and the write
are not atomic together, so concurrent consumers can interleave between
them and lose increments; the phases record where inside an iteration
each consumer stands. -/
inductive CState
  | idle
  | got
  | readv (v : Nat)
  | done
  deriving DecidableEq

/-- State of `unpack_directory`'s process pool (source lines 339-356):
the producer's remaining walk results, whether it has enqueued its
single sentinel (`None`, line 321), the shared FIFO queue (sentinel
modelled as `none`), the shared completion counter, and one phase per
consumer. -/
structure DistState (α : Type) where
  pending : List α
  sentinelSent : Bool
  queue : List (Option α)
  counter : Nat
  consumers : List CState

/-- One step of the distributor.  The producer enqueues its discovered
files in order and then one sentinel (source lines 316-321).  An idle
consumer either dequeues a job (`consDeq`, which also covers the
process-local `unpack_extension` call of line 334 — it touches no
shared state) or dequeues the sentinel, re-enqueues it and terminates
(`consSent`, lines 328-331).  The `counter.value += 1` of line 336 is
two separate steps, mirroring `multiprocessing.Value`: `consRead`
atomically reads the current counter, and `consWrite` atomically
writes the incremented value read earlier — other consumers may run in
between, so increments can be lost. -/
inductive DStep (α : Type) : DistState α → DistState α → Prop
  | prodJob (j : α) (rest : List α) (q : List (Option α)) (c : Nat)
      (r : List CState) :
      DStep α ⟨j :: rest, false, q, c, r⟩ ⟨rest, false, q ++ [some j], c, r⟩
  | prodSent (q : List (Option α)) (c : Nat) (r : List CState) :
      DStep α ⟨[], false, q, c, r⟩ ⟨[], true, q ++ [none], c, r⟩
  | consDeq (p : List α) (sb : Bool) (j : α) (q : List (Option α)) (c : Nat)
      (r : List CState) (i : Nat) (hi : r.get? i = some CState.idle) :
      DStep α ⟨p, sb, some j :: q, c, r⟩ ⟨p, sb, q, c, r.set i CState.got⟩
  | consRead (p : List α) (sb : Bool) (q : List (Option α)) (c : Nat)
      (r : List CState) (i : Nat) (hi : r.get? i = some CState.got) :
      DStep α ⟨p, sb, q, c, r⟩ ⟨p, sb, q, c, r.set i (CState.readv c)⟩
  | consWrite (p : List α) (sb : Bool) (q : List (Option α)) (c : Nat)
      (r : List CState) (i : Nat) (v : Nat)
      (hi : r.get? i = some (CState.readv v)) :
      DStep α ⟨p, sb, q, c, r⟩ ⟨p, sb, q, v + 1, r.set i CState.idle⟩
  | consSent (p : List α) (sb : Bool) (q : List (Option α)) (c : Nat)
      (r : List CState) (i : Nat) (hi : r.get? i = some CState.idle) :
      DStep α ⟨p, sb, none :: q, c, r⟩
        ⟨p, sb, q ++ [none], c, r.set i CState.done⟩

/-- Reachability along distributor steps. -/
def Reaches (α : Type) : DistState α → DistState α → Prop :=
  Relation.ReflTransGen (DStep α)

/-- Initial distributor state: the producer holds the M discovered
jobs, the queue is empty, the counter is zero and all N consumers are
idle. -/
def initState (α : Type) (jobs : List α) (N : Nat) : DistState α :=
  ⟨jobs, false, [], 0, List.replicate N CState.idle⟩

/-- All processes have been joined: the producer has exhausted its walk
and sent the sentinel, and every consumer has terminated. -/
def allJoined {α : Type} (s : DistState α) : Prop :=
  s.pending = [] ∧ s.sentinelSent = true ∧
    ∀ st ∈ s.consumers, st = CState.done

/-- Whether a consumer is inside an iteration: it has dequeued a job
whose counter increment has not completed. -/
def midJob : CState → Bool
  | CState.got => true
  | CState.readv _ => true
  | _ => false

/-- The number of consumers inside an iteration. -/
def phaseCount (l : List CState) : Nat := l.countP midJob

/-- The consumer loop itself (source lines 324-336), run to completion
against the queue contents it will observe: a job item is unpacked and
counted, the sentinel is re-enqueued and stops the loop, and an
exhausted queue means the blocking `get` never returns (`none`). -/
def consumerRun {α : Type} : List (Option α) → Nat → Option (List (Option α) × Nat)
  | [], _ => none
  | none :: rest, c => some (rest ++ [none], c)
  | some _ :: rest, c => consumerRun rest (c + 1)

/-! ## General lemmas about the deduplicating append loop -/

theorem strData_append (a b : String) : (a ++ b).data = a.data ++ b.data := rfl

theorem dedupAppend_eq_foldl (acc l : List String) :
    dedupAppend acc l = l.foldl (fun a r => if r ∈ a then a else a ++ [r]) acc := by
  induction l generalizing acc with
  | nil => rfl
  | cons x xs ih =>
    simp only [dedupAppend, List.foldl_cons]
    split <;> rw [ih]

theorem dedupAppend_append (acc l1 l2 : List String) :
    dedupAppend acc (l1 ++ l2) = dedupAppend (dedupAppend acc l1) l2 := by
  induction l1 generalizing acc with
  | nil => rfl
  | cons x xs ih =>
    simp only [List.cons_append, dedupAppend]
    split
    · exact ih acc
    · exact ih (acc ++ [x])

theorem mem_dedupAppend {y : String} (acc l : List String) :
    y ∈ dedupAppend acc l ↔ y ∈ acc ∨ y ∈ l := by
  induction l generalizing acc with
  | nil => simp [dedupAppend]
  | cons x xs ih =>
    simp only [dedupAppend]
    split
    · rename_i hx
      rw [ih]
      constructor
      · rintro (h | h)
        · exact Or.inl h
        · exact Or.inr (List.mem_cons_of_mem _ h)
      · rintro (h | h)
        · exact Or.inl h
        · rcases List.mem_cons.mp h with h | h
          · exact Or.inl (h ▸ hx)
          · exact Or.inr h
    · rw [ih]
      simp only [List.mem_append, List.mem_singleton, List.mem_cons]
      tauto

theorem dedupAppend_nodup (acc l : List String) (h : acc.Nodup) :
    (dedupAppend acc l).Nodup := by
  induction l generalizing acc with
  | nil => exact h
  | cons x xs ih =>
    simp only [dedupAppend]
    split
    · exact ih acc h
    · rename_i hx
      refine ih (acc ++ [x]) ?_
      simp [List.nodup_append, h, hx]

theorem dedupAppend_sublist (acc l : List String) :
    (dedupAppend acc l).Sublist (acc ++ l) := by
  induction l generalizing acc with
  | nil => simp [dedupAppend]
  | cons x xs ih =>
    simp only [dedupAppend]
    split
    · exact (ih acc).trans
        (List.Sublist.append_left (List.sublist_cons_self x xs) acc)
    · have := ih (acc ++ [x])
      simpa using this

theorem dedupAppend_eq_firstOccurrenceDedup (l : List String) :
    ∀ acc, dedupAppend acc l =
      acc ++ firstOccurrenceDedup (l.filter (fun x => !(decide (x ∈ acc)))) := by
  induction l with
  | nil =>
    intro acc
    simp [dedupAppend, firstOccurrenceDedup]
  | cons x xs ih =>
    intro acc
    by_cases hx : x ∈ acc
    · rw [show dedupAppend acc (x :: xs) = dedupAppend acc xs by
        simp [dedupAppend, hx]]
      rw [ih acc]
      congr 2
      simp [List.filter_cons, hx]
    · rw [show dedupAppend acc (x :: xs) = dedupAppend (acc ++ [x]) xs by
        simp [dedupAppend, hx]]
      rw [ih (acc ++ [x])]
      have hfil : xs.filter (fun y => !(decide (y ∈ acc ++ [x]))) =
          (xs.filter (fun y => !(decide (y ∈ acc)))).filter (fun y => y != x) := by
        rw [List.filter_filter]
        apply List.filter_congr
        intro y _
        by_cases hy : y = x
        · subst hy; simp
        · by_cases hmem : y ∈ acc
          · simp [hy, hmem]
          · simp [hy, hmem]
      rw [hfil]
      rw [List.filter_cons_of_pos (by simp [hx])]
      rw [show firstOccurrenceDedup (x :: xs.filter (fun y => !(decide (y ∈ acc)))) =
          x :: firstOccurrenceDedup
            ((xs.filter (fun y => !(decide (y ∈ acc)))).filter (fun y => y != x)) by
        simp [firstOccurrenceDedup]]
      simp

theorem dedupAppend_nil_eq (l : List String) :
    dedupAppend [] l = firstOccurrenceDedup l := by
  have h := dedupAppend_eq_firstOccurrenceDedup l []
  simpa using h

theorem content_scripts_list_eq (cs : List CSEntry) :
    content_scripts_list cs = dedupAppend [] (jsLists cs) := by
  suffices h : ∀ acc,
      cs.foldl
        (fun acc e =>
          match e with
          | .nonDict => acc
          | .dict js => dedupAppend acc js)
        acc = dedupAppend acc (jsLists cs) from h []
  induction cs with
  | nil => intro acc; rfl
  | cons e es ih =>
    intro acc
    cases e with
    | nonDict =>
      simp only [List.foldl_cons, jsLists, List.flatMap_cons, List.nil_append]
      exact ih acc
    | dict js =>
      simp only [List.foldl_cons, jsLists, List.flatMap_cons]
      rw [dedupAppend_append]
      exact ih (dedupAppend acc js)

/-- C4: `get_all_content_scripts` harvests the `js` entries of the
`content_scripts` groups in iteration order with duplicates removed,
first occurrence winning; in particular `["a.js","b.js","a.js"]`
harvests to `["a.js","b.js"]`. -/
theorem claim_c4_content_scripts_dedup :
    (∀ cs : List CSEntry,
        content_scripts_list cs = firstOccurrenceDedup (jsLists cs)) ∧
      content_scripts_list [CSEntry.dict ["a.js", "b.js", "a.js"]] =
        ["a.js", "b.js"] := by
  constructor
  · intro cs
    rw [content_scripts_list_eq, dedupAppend_nil_eq]
  · rfl

theorem string_eq_empty_of_data {a : String} (h : a.data = []) : a = "" := by
  cases a
  simp_all

theorem append_ne_empty_left (a b : String) (ha : a ≠ "") : a ++ b ≠ "" := by
  intro h
  have hd : (a ++ b).data = [] := by rw [h]
  rw [strData_append] at hd
  exact ha (string_eq_empty_of_data (List.append_eq_nil.mp hd).1)

/-- C5: a script contributes nothing to `pack_and_beautify` exactly
when it trips the filter — case-insensitively contains `jquery`,
`jq.min.js` or `jq.js`, does not end in `.js`, or starts with
`https://` — or its archive content is empty; every other script is
included. -/
theorem claim_c5_filter_iff (E : Externals) (zf : Zip) (script : String) :
    scriptContribution E zf script = "" ↔
      substrB "jquery" (pyLower script) = true ∨
      substrB "jq.min.js" (pyLower script) = true ∨
      substrB "jq.js" (pyLower script) = true ∨
      pyEndsWith script ".js" = false ∨
      pyStartsWith script "https://" = true ∨
      read_from_zip zf script = "" := by
  unfold scriptContribution
  by_cases hskip : skipScript script = true
  · rw [if_pos hskip]
    have hr : substrB "jquery" (pyLower script) = true ∨
        substrB "jq.min.js" (pyLower script) = true ∨
        substrB "jq.js" (pyLower script) = true ∨
        pyEndsWith script ".js" = false ∨
        pyStartsWith script "https://" = true ∨
        read_from_zip zf script = "" := by
      unfold skipScript at hskip
      simp only [Bool.or_eq_true, Bool.not_eq_true'] at hskip
      rcases hskip with ((((h1 | h2) | h3) | h4) | h5) | h6
      · exact Or.inl h1
      · exact Or.inr (Or.inr (Or.inr (Or.inl h2)))
      · exact Or.inr (Or.inr (Or.inr (Or.inr (Or.inl h3))))
      · exact Or.inr (Or.inr (Or.inr (Or.inr (Or.inl h4))))
      · exact Or.inr (Or.inl h5)
      · exact Or.inr (Or.inr (Or.inl h6))
    exact iff_of_true rfl hr
  · rw [if_neg hskip]
    have hskip' : skipScript script = false := by
      cases hsk : skipScript script
      · rfl
      · exact absurd hsk hskip
    unfold skipScript at hskip'
    simp only [Bool.or_eq_false_iff, Bool.not_eq_false'] at hskip'
    obtain ⟨⟨⟨⟨⟨j1, e2⟩, s3⟩, s4⟩, m5⟩, j6⟩ := hskip'
    by_cases hc : read_from_zip zf script = ""
    · rw [if_pos hc]
      exact iff_of_true rfl
        (Or.inr (Or.inr (Or.inr (Or.inr (Or.inr hc)))))
    · rw [if_neg hc]
      apply iff_of_false
      · apply append_ne_empty_left
        apply append_ne_empty_left
        apply append_ne_empty_left
        apply append_ne_empty_left
        decide
      · rintro (h | h | h | h | h | h)
        · simp [j1] at h
        · simp [m5] at h
        · simp [j6] at h
        · simp [e2] at h
        · simp [s3] at h
        · exact hc h
/-! ## Lemmas about the Python replace scan -/

theorem isSubstr_of_isPrefixOf {pat s : List Char}
    (h : pat.isPrefixOf s = true) : isSubstr pat s = true := by
  cases s with
  | nil =>
    cases pat with
    | nil => rfl
    | cons p ps => simp [List.isPrefixOf] at h
  | cons c rest => simp [isSubstr, h]

theorem pyReplaceF_id_of_not_substr :
    ∀ (fuel : Nat) (s old new : List Char), isSubstr old s = false →
      pyReplaceF fuel s old new = s := by
  intro fuel
  induction fuel with
  | zero => intro s old new _; rfl
  | succ fuel ih =>
    intro s old new h
    cases s with
    | nil => rfl
    | cons c rest =>
      have hdef : (old.isPrefixOf (c :: rest) || isSubstr old rest) = false := h
      simp only [Bool.or_eq_false_iff] at hdef
      simp only [pyReplaceF, hdef.1, Bool.false_eq_true, if_false]
      rw [ih rest old new hdef.2]

theorem pyReplace_of_not_substr {s old new : List Char}
    (h : isSubstr old s = false) : pyReplace s old new = s := by
  unfold pyReplace
  split
  · rfl
  · exact pyReplaceF_id_of_not_substr _ s old new h

theorem pyReplaceF_length_le :
    ∀ (fuel : Nat) (s old : List Char),
      (pyReplaceF fuel s old []).length ≤ s.length := by
  intro fuel
  induction fuel with
  | zero => intro s old; exact le_rfl
  | succ fuel ih =>
    intro s old
    cases s with
    | nil => simp [pyReplaceF]
    | cons c rest =>
      simp only [pyReplaceF]
      split
      · simp only [List.nil_append]
        calc (pyReplaceF fuel ((c :: rest).drop old.length) old []).length
            ≤ ((c :: rest).drop old.length).length := ih _ _
          _ ≤ (c :: rest).length := by
              simp only [List.length_drop]
              omega
      · simp only [List.length_cons]
        have := ih rest old
        omega

theorem pyReplaceF_length_lt :
    ∀ (fuel : Nat) (s old : List Char), old ≠ [] → s.length ≤ fuel →
      isSubstr old s = true →
      (pyReplaceF fuel s old []).length < s.length := by
  intro fuel
  induction fuel with
  | zero =>
    intro s old hold hlen hsub
    have hs : s = [] := List.length_eq_zero.mp (Nat.le_zero.mp hlen)
    subst hs
    simp only [isSubstr, List.isEmpty_iff] at hsub
    exact absurd hsub hold
  | succ fuel ih =>
    intro s old hold hlen hsub
    cases s with
    | nil =>
      simp only [isSubstr, List.isEmpty_iff] at hsub
      exact absurd hsub hold
    | cons c rest =>
      simp only [pyReplaceF]
      by_cases hp : old.isPrefixOf (c :: rest) = true
      · rw [if_pos hp]
        simp only [List.nil_append]
        have h1 := pyReplaceF_length_le fuel ((c :: rest).drop old.length) old
        have h2 : 0 < old.length := List.length_pos.mpr hold
        simp only [List.length_drop, List.length_cons] at h1 ⊢
        omega
      · rw [if_neg hp]
        have hsub' : isSubstr old rest = true := by
          have hor : (old.isPrefixOf (c :: rest) || isSubstr old rest) = true := hsub
          simp only [Bool.or_eq_true] at hor
          tauto
        have hlt := ih rest old hold (by simp only [List.length_cons] at hlen; omega) hsub'
        simp only [List.length_cons]
        omega

theorem pyReplace_length_lt {s old : List Char} (hold : old ≠ [])
    (hsub : isSubstr old s = true) :
    (pyReplace s old []).length < s.length := by
  unfold pyReplace
  rw [if_neg hold]
  exact pyReplaceF_length_lt s.length s old hold le_rfl hsub

/-- Externals instance used for concrete evaluations: identity
beautifier, identity URL join, identity set-iteration order, trivial
parsers and no pre-existing filesystem entries. -/
def idExternals : Externals where
  zipOpenF := fun _ => none
  jsonParse := fun _ => none
  jsonDump := fun _ => ""
  soup := fun _ => []
  uj := fun _ s => s
  bf := id
  bgRepr := fun _ => ""
  setIterWl := id
  setIterScripts := id
  fsExists := fun _ => false

/-- C10 counterexample: on the script bytes
`"use struse strictict"` the two deletions of `"use strict"` splice the
remaining bytes into a fresh `"use strict"`, which survives the scrub
and reaches the emitted output, contradicting the claim that the
output never contains the sequence. -/
theorem claim_c10_counterexample :
    substrB "use strict" (cleanContent "use struse strictict") = true ∧
      scriptContribution idExternals
        ⟨"c.crx", [("s.js", "use struse strictict")]⟩ "s.js" =
        "// New file: s.js\nuse strict\n" := by
  constructor
  · decide
  · decide

/-- C10 amended: a retained script's emitted content is its raw bytes
with Python `replace`-deletion of `"use strict"` and then `"..."`
applied before beautification; inputs containing neither sequence pass
through unchanged, and a deletion strictly shortens the content, but a
spliced occurrence can survive (see the counterexample). -/
theorem claim_c10_amended :
    (∀ (E : Externals) (zf : Zip) (script : String),
        skipScript script = false → ¬ read_from_zip zf script = "" →
        scriptContribution E zf script =
          "// New file: " ++ script ++ "\n" ++
            E.bf (cleanContent (read_from_zip zf script)) ++ "\n") ∧
      (∀ s : List Char, isSubstr ("use strict").data s = false →
          isSubstr ("...").data s = false → (cleanContent ⟨s⟩).data = s) ∧
      (∀ s : List Char, isSubstr ("use strict").data s = true →
          (pyReplace s ("use strict").data []).length < s.length) := by
  refine ⟨?_, ?_, ?_⟩
  · intro E zf script hskip hc
    unfold scriptContribution
    rw [if_neg (by simp [hskip]), if_neg hc]
  · intro s h1 h2
    show pyReplace (pyReplace s ("use strict").data []) ("...").data [] = s
    rw [pyReplace_of_not_substr h1, pyReplace_of_not_substr h2]
  · intro s h1
    exact pyReplace_length_lt (by decide) h1

/-- Witness for the amended C10 theorem at concrete inputs. -/
theorem claim_c10_amended_witness :
    scriptContribution idExternals ⟨"c.crx", [("s.js", "var x")]⟩ "s.js" =
        "// New file: " ++ "s.js" ++ "\n" ++
          idExternals.bf
            (cleanContent
              (read_from_zip ⟨"c.crx", [("s.js", "var x")]⟩ "s.js")) ++ "\n" ∧
      (cleanContent ⟨"var x".data⟩).data = "var x".data ∧
      (pyReplace ("xuse strictx").data ("use strict").data []).length <
        ("xuse strictx").data.length :=
  ⟨claim_c10_amended.1 idExternals ⟨"c.crx", [("s.js", "var x")]⟩ "s.js"
      (by decide) (by decide),
    claim_c10_amended.2.1 "var x".data (by decide) (by decide),
    claim_c10_amended.2.2 ("xuse strictx").data (by decide)⟩

/-! ## Claim C6: the archive read fallback chain -/

theorem dropWhile_append_all {p : Char → Bool} (pre l : List Char)
    (h : ∀ ch ∈ pre, p ch = true) :
    (pre ++ l).dropWhile p = l.dropWhile p := by
  induction pre with
  | nil => rfl
  | cons ch pr ih =>
    simp only [List.cons_append, List.dropWhile_cons,
      h ch (List.mem_cons_self ch pr), if_true]
    exact ih (fun c hc => h c (List.mem_cons_of_mem ch hc))

theorem normalizeZipName_prepend (n : String) (pre : List Char)
    (h : ∀ ch ∈ pre, ch = '.' ∨ ch = '/') :
    normalizeZipName ⟨pre ++ n.data⟩ = normalizeZipName n := by
  unfold normalizeZipName
  congr 1
  exact congrArg _ (dropWhile_append_all pre n.data (fun ch hc => by
    rcases h ch hc with h1 | h1 <;> simp [dotSlashChar, h1]))

theorem readEntry_eq_none {zf : Zip} {n : String}
    (h : ∀ e ∈ zf.entries, ¬ e.1 = n) : zf.readEntry n = none := by
  unfold Zip.readEntry
  rw [List.find?_eq_none.mpr]
  · rfl
  · intro e he
    simp only [beq_iff_eq]
    exact h e (List.mem_reverse.mp he)

theorem lowerActual_eq_none {zf : Zip} {key : String}
    (h : ∀ e ∈ zf.entries, ¬ pyLower e.1 = key) : zf.lowerActual key = none := by
  unfold Zip.lowerActual
  rw [List.find?_eq_none.mpr]
  · rfl
  · intro e he
    simp only [beq_iff_eq]
    exact h e (List.mem_reverse.mp he)

/-- C6 counterexample: on an archive containing `foo`, requesting
`...foo` — a name with no leading `./` prefix — nevertheless returns
the contents of `foo`, because the source's `lstrip("./")` strips
every leading `.` and `/` character; the lookup described by the
claim, which only strips one leading `./`, misses and yields empty
bytes instead. -/
theorem claim_c6_counterexample :
    read_from_zip ⟨"z.crx", [("foo", "A")]⟩ "...foo" = "A" ∧
      read_from_zip_claim ⟨"z.crx", [("foo", "A")]⟩ "...foo" = "" ∧
      ("A" : String) ≠ "" := by
  exact ⟨by decide, by decide, by decide⟩

/-- C6 amended: `read_from_zip` normalises the requested name by
stripping all leading `.` and `/` characters (Python `lstrip("./")`)
and the part from the first `?` on; prepending any run of such
characters therefore never changes the result.  An exact hit on the
normalised name returns that member's bytes, and when no member
matches even case-insensitively the result is the empty byte sequence
— the model is total, so no exception escapes. -/
theorem claim_c6_read_amended :
    (∀ (zf : Zip) (n : String) (pre : List Char),
        (∀ ch ∈ pre, ch = '.' ∨ ch = '/') →
        read_from_zip zf ⟨pre ++ n.data⟩ = read_from_zip zf n) ∧
      (∀ (zf : Zip) (n : String) (c : String),
        zf.readEntry (normalizeZipName n) = some c →
        read_from_zip zf n = c) ∧
      (∀ (zf : Zip) (n : String),
        (∀ e ∈ zf.entries, ¬ pyLower e.1 = pyLower (normalizeZipName n)) →
        read_from_zip zf n = "") := by
  refine ⟨?_, ?_, ?_⟩
  · intro zf n pre h
    unfold read_from_zip
    rw [normalizeZipName_prepend n pre h]
  · intro zf n c h
    unfold read_from_zip
    rw [h]
  · intro zf n h
    have hexact : zf.readEntry (normalizeZipName n) = none := by
      apply readEntry_eq_none
      intro e he hcontra
      exact h e he (by rw [hcontra])
    have hlower : zf.lowerActual (pyLower (normalizeZipName n)) = none :=
      lowerActual_eq_none h
    unfold read_from_zip
    rw [hexact, hlower]

/-- Witness for the amended C6 theorem at concrete inputs. -/
theorem claim_c6_read_amended_witness :
    read_from_zip ⟨"z.crx", [("Foo", "B")]⟩ ⟨['.', '/', '.'] ++ "Foo".data⟩ =
        read_from_zip ⟨"z.crx", [("Foo", "B")]⟩ "Foo" ∧
      read_from_zip ⟨"z.crx", [("Foo", "B")]⟩ "Foo" = "B" ∧
      read_from_zip ⟨"z.crx", [("Foo", "B")]⟩ "nope" = "" :=
  ⟨claim_c6_read_amended.1 ⟨"z.crx", [("Foo", "B")]⟩ "Foo" ['.', '/', '.']
      (by decide),
    claim_c6_read_amended.2.1 ⟨"z.crx", [("Foo", "B")]⟩ "Foo" "B" (by decide),
    claim_c6_read_amended.2.2 ⟨"z.crx", [("Foo", "B")]⟩ "nope" (by decide)⟩

/-- Witness for C5 at a concrete filtered path. -/
theorem claim_c5_filter_iff_witness :
    scriptContribution idExternals ⟨"j.crx", [("jquery.js", "X")]⟩
      "jquery.js" = "" :=
  (claim_c5_filter_iff idExternals ⟨"j.crx", [("jquery.js", "X")]⟩
    "jquery.js").mpr (Or.inl (by decide))

/-! ## Claim C3: skip paths perform no filesystem effect -/

/-- C3: on any of the skip paths — unopenable archive or unparseable
manifest, a `theme` key, or a `manifest_version` outside {2, 3} —
`unpack_extension` performs no filesystem effect: no destination
directory is created and no output file is written. -/
theorem claim_c3_skip_no_effects :
    (∀ (E : Externals) (crx dest : String),
        E.zipOpenF crx = none → unpack_extension E crx dest = []) ∧
      (∀ (E : Externals) (crx dest : String) (zf : Zip),
        E.zipOpenF crx = some zf →
        E.jsonParse (read_from_zip zf "manifest.json") = none →
        unpack_extension E crx dest = []) ∧
      (∀ (E : Externals) (crx dest : String) (zf : Zip) (m : Manifest),
        E.zipOpenF crx = some zf →
        E.jsonParse (read_from_zip zf "manifest.json") = some m →
        m.theme = true → unpack_extension E crx dest = []) ∧
      (∀ (E : Externals) (crx dest : String) (zf : Zip) (m : Manifest),
        E.zipOpenF crx = some zf →
        E.jsonParse (read_from_zip zf "manifest.json") = some m →
        ¬ m.manifest_version.getD (-1) = 2 →
        ¬ m.manifest_version.getD (-1) = 3 →
        unpack_extension E crx dest = []) := by
  refine ⟨?_, ?_, ?_, ?_⟩
  · intro E crx dest h
    unfold unpack_extension
    simp [h]
  · intro E crx dest zf hz hp
    unfold unpack_extension
    simp [hz, hp]
  · intro E crx dest zf m hz hp ht
    unfold unpack_extension
    simp [hz, hp, ht]
  · intro E crx dest zf m hz hp h2 h3
    unfold unpack_extension
    by_cases ht : m.theme <;> simp [hz, hp, ht, h2, h3]

/-- Externals whose archive opens but whose manifest does not parse. -/
def parseFailExternals : Externals :=
  { idExternals with zipOpenF := fun _ => some ⟨"p.crx", []⟩ }

/-- Externals producing a manifest that declares a theme. -/
def themeExternals : Externals :=
  { idExternals with
    zipOpenF := fun _ => some ⟨"t.crx", []⟩
    jsonParse := fun _ => some ⟨some 2, true, [], none, none⟩ }

/-- Externals producing a manifest with `manifest_version` 1. -/
def v1Externals : Externals :=
  { idExternals with
    zipOpenF := fun _ => some ⟨"v.crx", []⟩
    jsonParse := fun _ => some ⟨some 1, false, [], none, none⟩ }

/-- Witness for C3 at concrete inputs, one per skip path. -/
theorem claim_c3_skip_no_effects_witness :
    unpack_extension idExternals "a.crx" "d" = [] ∧
      unpack_extension parseFailExternals "a.crx" "d" = [] ∧
      unpack_extension themeExternals "a.crx" "d" = [] ∧
      unpack_extension v1Externals "a.crx" "d" = [] :=
  ⟨claim_c3_skip_no_effects.1 idExternals "a.crx" "d" rfl,
    claim_c3_skip_no_effects.2.1 parseFailExternals "a.crx" "d" ⟨"p.crx", []⟩
      rfl rfl,
    claim_c3_skip_no_effects.2.2.1 themeExternals "a.crx" "d" ⟨"t.crx", []⟩
      ⟨some 2, true, [], none, none⟩ rfl rfl rfl,
    claim_c3_skip_no_effects.2.2.2 v1Externals "a.crx" "d" ⟨"v.crx", []⟩
      ⟨some 1, false, [], none, none⟩ rfl rfl (by decide) (by decide)⟩

/-! ## Claim C1: the v2 background page's inline scripts are dropped -/

/-- HTML parse results for the C1 background page. -/
def c1soup : String → List ScriptElem := fun s =>
  if s = "HTMLDOC" then [⟨some "x.js", none⟩, ⟨none, some "INLINEBODY"⟩]
  else []

/-- Externals for the C1 evaluation. -/
def c1Externals : Externals :=
  { idExternals with soup := c1soup, bgRepr := fun _ => "BG" }

def c1zip : Zip := ⟨"e.crx", [("bg.html", "HTMLDOC"), ("x.js", "XCONTENT")]⟩

def c1bg : Background := ⟨[], some "bg.html", none⟩

def c1manifest : Manifest := ⟨some 2, false, [], some c1bg, none⟩

/-- C1 evaluated at the failing input: for a v2 manifest whose
background page holds one `<script src="x.js">` and one inline
`<script>`, `get_all_background_scripts_v2` returns only the packed
external script.  The inline body is harvested into the inline
accumulator (last conjunct) but never reaches the returned string:
source line 170 returns `pack_and_beautify(...)` alone, unlike
`get_wars_v2`/`get_wars_v3` (lines 216/250) which prepend their inline
accumulator — so the claim's required inline content is absent. -/
theorem claim_c1_inline_dropped :
    get_all_background_scripts_v2 c1Externals c1manifest c1zip =
        "// New file: x.js\nXCONTENT\n" ∧
      substrB "XCONTENT"
        (get_all_background_scripts_v2 c1Externals c1manifest c1zip) = true ∧
      substrB "INLINEBODY"
        (get_all_background_scripts_v2 c1Externals c1manifest c1zip) = false ∧
      background_v2_inline c1Externals c1bg c1zip =
        "// New inline (from BG)\nINLINEBODY\n" :=
  ⟨by decide, by decide, by decide, by decide⟩

/-! ## Claims C7 and C9: web-accessible-resource harvesting -/

/-- The flattened union of the `resources` lists of the v3
`web_accessible_resources` rule objects, duplicates kept. -/
def flatResourcesList (decls : List WarDecl) : List String :=
  decls.flatMap
    (fun d => match d with | .entry e => e.resources.getD [] | .pat _ => [])

/-- The flattened `resources` union of a manifest. -/
def flatResources (m : Manifest) : List String :=
  match m.web_accessible_resources with
  | none => []
  | some decls => flatResourcesList decls

theorem war_v3_whitelist_eq (decls : List WarDecl) :
    war_v3_whitelist decls = dedupAppend [] (flatResourcesList decls) := by
  suffices h : ∀ acc,
      decls.foldl
        (fun acc d =>
          match d with
          | .entry e =>
            match e.resources with
            | some rs => rs.foldl (fun a r => if r ∈ a then a else a ++ [r]) acc
            | none => acc
          | .pat _ => acc)
        acc = dedupAppend acc (flatResourcesList decls) from h []
  induction decls with
  | nil => intro acc; rfl
  | cons d ds ih =>
    intro acc
    cases d with
    | pat s =>
      simp only [List.foldl_cons, flatResourcesList, List.flatMap_cons,
        List.nil_append]
      exact ih acc
    | entry e =>
      cases he : e.resources with
      | none =>
        simp only [List.foldl_cons, flatResourcesList, List.flatMap_cons, he,
          Option.getD_none, List.nil_append]
        exact ih acc
      | some rs =>
        simp only [List.foldl_cons, flatResourcesList, List.flatMap_cons, he,
          Option.getD_some]
        rw [dedupAppend_append, ← dedupAppend_eq_foldl]
        exact ih (dedupAppend acc rs)

theorem mem_war_v3_whitelist {x : String} (decls : List WarDecl) :
    x ∈ war_v3_whitelist decls ↔ x ∈ flatResourcesList decls := by
  rw [war_v3_whitelist_eq, mem_dedupAppend]
  simp

/-- C7: `get_wars_v3` scans an archive entry exactly when its name
glob-matches some pattern of the flattened `resources` union, contains
`.htm`, and is not the declared background page; and the returned
string is the inline-fragment accumulator followed by the beautified
packed bundle. -/
theorem claim_c7_wars_v3 (E : Externals)
    (hw : ∀ l : List String, (E.setIterWl l).Perm l) :
    (∀ (m : Manifest) (zf : Zip) (f : String),
        f ∈ war_v3_scanned E m zf ↔
          f ∈ zf.namelist ∧
            (∃ pat ∈ flatResources m, fnmatchB f pat = true) ∧
            substrB ".htm" f = true ∧ bgPageOf m ≠ some f) ∧
      (∀ (m : Manifest) (zf : Zip),
        get_wars_v3 E m zf =
          (warScanFold E zf (war_v3_scanned E m zf)).2 ++
            pack_and_beautify E zf
              (E.setIterScripts (warScanFold E zf (war_v3_scanned E m zf)).1)) := by
  constructor
  · intro m zf f
    cases hwar : m.web_accessible_resources with
    | none => simp [war_v3_scanned, hwar, flatResources]
    | some decls =>
      simp only [war_v3_scanned, hwar, flatResources]
      rw [List.mem_flatMap]
      constructor
      · rintro ⟨a, ha, hf⟩
        rw [List.mem_filterMap] at hf
        obtain ⟨pat, hpat, hif⟩ := hf
        by_cases hc : warCond m a pat = true
        · rw [if_pos hc] at hif
          simp only [Option.some.injEq] at hif
          subst hif
          unfold warCond at hc
          simp only [Bool.and_eq_true, bne_iff_ne, ne_eq] at hc
          obtain ⟨⟨hfn, hhtm⟩, hbg⟩ := hc
          refine ⟨ha, ⟨pat, ?_, hfn⟩, hhtm, hbg⟩
          exact (mem_war_v3_whitelist decls).mp ((hw _).mem_iff.mp hpat)
        · rw [if_neg hc] at hif
          cases hif
      · rintro ⟨ha, ⟨pat, hpat, hfn⟩, hhtm, hbg⟩
        refine ⟨f, ha, ?_⟩
        rw [List.mem_filterMap]
        refine ⟨pat, ?_, ?_⟩
        · exact (hw _).mem_iff.mpr ((mem_war_v3_whitelist decls).mpr hpat)
        · rw [if_pos]
          unfold warCond
          simp only [Bool.and_eq_true, bne_iff_ne, ne_eq]
          exact ⟨⟨hfn, hhtm⟩, hbg⟩
  · intro m zf
    rfl

/-- Manifest for the C7 witness: one v3 rule exposing `war/*.htm`. -/
def c7manifest : Manifest :=
  ⟨some 3, false, [], none, some [.entry ⟨some ["war/*.htm"]⟩]⟩

def c7zip : Zip := ⟨"w.crx", [("war/a.htm", "H1"), ("x.js", "J")]⟩

/-- Witness for C7 at concrete inputs (identity iteration order). -/
theorem claim_c7_wars_v3_witness :
    ("war/a.htm" ∈ war_v3_scanned idExternals c7manifest c7zip ↔
        "war/a.htm" ∈ c7zip.namelist ∧
          (∃ pat ∈ flatResources c7manifest,
            fnmatchB "war/a.htm" pat = true) ∧
          substrB ".htm" "war/a.htm" = true ∧
          bgPageOf c7manifest ≠ some "war/a.htm") ∧
      get_wars_v3 idExternals c7manifest c7zip =
        (warScanFold idExternals c7zip
            (war_v3_scanned idExternals c7manifest c7zip)).2 ++
          pack_and_beautify idExternals c7zip
            (idExternals.setIterScripts
              (warScanFold idExternals c7zip
                (war_v3_scanned idExternals c7manifest c7zip)).1) :=
  ⟨(claim_c7_wars_v3 idExternals (fun l => List.Perm.refl l)).1 c7manifest
      c7zip "war/a.htm",
    (claim_c7_wars_v3 idExternals (fun l => List.Perm.refl l)).2 c7manifest
      c7zip⟩

/-- The discovery sequence of the v2 background bundle: the declared
string scripts, then the resolved `<script src>` references of the
background page, duplicates kept. -/
def background_v2_discovered (E : Externals) (bg : Background) (zf : Zip) :
    List String :=
  bgStrs bg.scripts ++
    (match bg.page with
     | none => []
     | some p =>
       if p = "" then []
       else
         (E.soup (read_from_zip zf (stripFragment p))).filterMap
           (fun el => el.src.map (E.uj p)))

/-- The discovery sequence of a wars scan: the resolved `<script src>`
references of every scanned file, in scan order, duplicates kept. -/
def warDiscovered (E : Externals) (zf : Zip) (occ : List String) :
    List String :=
  occ.flatMap
    (fun f =>
      (E.soup ((zf.readEntry f).getD "")).filterMap
        (fun el => el.src.map (fun s => E.uj f (stripFragment s))))

theorem bgStrs_foldl_eq (items : List BgItem) :
    ∀ acc : List String,
      items.foldl
        (fun acc it =>
          match it with
          | .str s => if s ∈ acc then acc else acc ++ [s]
          | .nonStr => acc)
        acc = dedupAppend acc (bgStrs items) := by
  induction items with
  | nil => intro acc; rfl
  | cons it its ih =>
    intro acc
    cases it with
    | nonStr =>
      rw [List.foldl_cons, show bgStrs (BgItem.nonStr :: its) = bgStrs its
        from rfl]
      exact ih acc
    | str s =>
      rw [List.foldl_cons,
        show bgStrs (BgItem.str s :: its) = s :: bgStrs its from rfl]
      by_cases hs : s ∈ acc
      · rw [show dedupAppend acc (s :: bgStrs its) =
            dedupAppend acc (bgStrs its) by simp [dedupAppend, hs]]
        simpa [hs] using ih acc
      · rw [show dedupAppend acc (s :: bgStrs its) =
            dedupAppend (acc ++ [s]) (bgStrs its) by simp [dedupAppend, hs]]
        simpa [hs] using ih (acc ++ [s])

theorem srcFold_eq (elems : List ScriptElem) (g : String → String) :
    ∀ base : List String,
      elems.foldl
        (fun acc el =>
          match el.src with
          | some s => if g s ∈ acc then acc else acc ++ [g s]
          | none => acc)
        base = dedupAppend base (elems.filterMap (fun el => el.src.map g)) := by
  induction elems with
  | nil => intro base; rfl
  | cons el els ih =>
    intro base
    cases hsrc : el.src with
    | none =>
      simp only [List.foldl_cons, List.filterMap_cons, hsrc, Option.map_none']
      exact ih base
    | some s =>
      simp only [List.foldl_cons, List.filterMap_cons, hsrc, Option.map_some']
      by_cases hmem : g s ∈ base
      · rw [show dedupAppend base (g s :: els.filterMap (fun el => el.src.map g)) =
            dedupAppend base (els.filterMap (fun el => el.src.map g)) by
          simp [dedupAppend, hmem]]
        simp only [hmem, if_true]
        exact ih base
      · rw [show dedupAppend base (g s :: els.filterMap (fun el => el.src.map g)) =
            dedupAppend (base ++ [g s]) (els.filterMap (fun el => el.src.map g)) by
          simp [dedupAppend, hmem]]
        simp only [hmem, if_false]
        exact ih (base ++ [g s])

theorem background_v2_scripts_eq (E : Externals) (bg : Background) (zf : Zip) :
    background_v2_scripts E bg zf =
      dedupAppend [] (background_v2_discovered E bg zf) := by
  unfold background_v2_scripts background_v2_discovered
  cases hp : bg.page with
  | none =>
    simp only []
    rw [bgStrs_foldl_eq bg.scripts []]
    simp
  | some p =>
    by_cases hpe : p = ""
    · simp only [hpe, if_pos rfl]
      rw [bgStrs_foldl_eq bg.scripts []]
      simp
    · simp only [if_neg hpe]
      rw [bgStrs_foldl_eq bg.scripts []]
      rw [srcFold_eq _ (E.uj p) (dedupAppend [] (bgStrs bg.scripts))]
      rw [← dedupAppend_append]

theorem warFileStep_fst (E : Externals) (zf : Zip) (f : String) :
    ∀ acc : List String × String,
      (warFileStep E zf acc f).1 =
        dedupAppend acc.1
          ((E.soup ((zf.readEntry f).getD "")).filterMap
            (fun el => el.src.map (fun s => E.uj f (stripFragment s)))) := by
  unfold warFileStep
  generalize (E.soup ((zf.readEntry f).getD "")) = elems
  induction elems with
  | nil => intro acc; rfl
  | cons el els ih =>
    intro acc
    cases hsrc : el.src with
    | some s =>
      simp only [List.foldl_cons, List.filterMap_cons, hsrc, Option.map_some']
      by_cases hmem : E.uj f (stripFragment s) ∈ acc.1
      · rw [show dedupAppend acc.1 (E.uj f (stripFragment s) ::
              els.filterMap (fun el => el.src.map (fun s => E.uj f (stripFragment s)))) =
            dedupAppend acc.1
              (els.filterMap (fun el => el.src.map (fun s => E.uj f (stripFragment s)))) by
          simp [dedupAppend, hmem]]
        simp only [hmem, if_true]
        exact ih acc
      · rw [show dedupAppend acc.1 (E.uj f (stripFragment s) ::
              els.filterMap (fun el => el.src.map (fun s => E.uj f (stripFragment s)))) =
            dedupAppend (acc.1 ++ [E.uj f (stripFragment s)])
              (els.filterMap (fun el => el.src.map (fun s => E.uj f (stripFragment s)))) by
          simp [dedupAppend, hmem]]
        simp only [hmem, if_false]
        exact ih (acc.1 ++ [E.uj f (stripFragment s)], acc.2)
    | none =>
      simp only [List.foldl_cons, List.filterMap_cons, hsrc, Option.map_none']
      cases hstr : el.string with
      | none => exact ih acc
      | some body =>
        by_cases hb : body = ""
        · simp only [hb, if_pos rfl]
          exact ih acc
        · simp only [if_neg hb]
          exact ih (acc.1, acc.2 ++ "// New inline (from " ++ f ++ ")\n" ++
            E.bf body ++ "\n")

theorem warScanFold_foldl_fst (E : Externals) (zf : Zip) (occ : List String) :
    ∀ acc : List String × String,
      (occ.foldl (warFileStep E zf) acc).1 =
        dedupAppend acc.1 (warDiscovered E zf occ) := by
  induction occ with
  | nil => intro acc; rfl
  | cons f fs ih =>
    intro acc
    simp only [List.foldl_cons, warDiscovered, List.flatMap_cons]
    rw [dedupAppend_append, ← warFileStep_fst E zf f acc]
    have h := ih (warFileStep E zf acc f)
    rw [h]
    unfold warDiscovered
    rfl

theorem warScanFold_fst (E : Externals) (zf : Zip) (occ : List String) :
    (warScanFold E zf occ).1 = dedupAppend [] (warDiscovered E zf occ) :=
  warScanFold_foldl_fst E zf occ ([], "")

/-- C9 amended: content and background bundles are duplicate-free and
preserve discovery order (they are order-preserving sublists of their
discovery sequences); the wars bundles are duplicate-free but are
handed to `pack_and_beautify` in the runtime's set-iteration order —
a permutation of the insertion-ordered deduplication of the discovery
sequence, not necessarily the insertion order itself. -/
theorem claim_c9_amended (E : Externals)
    (hσ : ∀ l : List String, (E.setIterScripts l).Perm l) :
    (∀ cs : List CSEntry,
        (content_scripts_list cs).Nodup ∧
          (content_scripts_list cs).Sublist (jsLists cs)) ∧
      (∀ (bg : Background) (zf : Zip),
        (background_v2_scripts E bg zf).Nodup ∧
          (background_v2_scripts E bg zf).Sublist
            (background_v2_discovered E bg zf)) ∧
      (∀ (m : Manifest) (zf : Zip),
        (E.setIterScripts
            (warScanFold E zf (war_v3_scanned E m zf)).1).Nodup ∧
          (E.setIterScripts
              (warScanFold E zf (war_v3_scanned E m zf)).1).Perm
            (dedupAppend []
              (warDiscovered E zf (war_v3_scanned E m zf)))) ∧
      (∀ (m : Manifest) (zf : Zip),
        (E.setIterScripts
            (warScanFold E zf (war_v2_scanned m zf)).1).Nodup ∧
          (E.setIterScripts
              (warScanFold E zf (war_v2_scanned m zf)).1).Perm
            (dedupAppend []
              (warDiscovered E zf (war_v2_scanned m zf)))) := by
  have hnil : ([] : List String).Nodup := List.nodup_nil
  refine ⟨?_, ?_, ?_, ?_⟩
  · intro cs
    rw [content_scripts_list_eq]
    constructor
    · exact dedupAppend_nodup [] _ hnil
    · simpa using dedupAppend_sublist [] (jsLists cs)
  · intro bg zf
    rw [background_v2_scripts_eq]
    constructor
    · exact dedupAppend_nodup [] _ hnil
    · simpa using dedupAppend_sublist [] (background_v2_discovered E bg zf)
  · intro m zf
    rw [warScanFold_fst]
    constructor
    · exact ((hσ _).nodup_iff).mpr (dedupAppend_nodup [] _ hnil)
    · exact hσ _
  · intro m zf
    rw [warScanFold_fst]
    constructor
    · exact ((hσ _).nodup_iff).mpr (dedupAppend_nodup [] _ hnil)
    · exact hσ _

/-- HTML parse results for the C9 run: each scanned page references
one external script. -/
def c9soup : String → List ScriptElem := fun s =>
  if s = "H1" then [⟨some "a.js", none⟩]
  else if s = "H2" then [⟨some "b.js", none⟩]
  else []

/-- Externals for the C9 counterexample: the set-iteration order is
reversal, one of the orders CPython's unordered `set` may produce. -/
def c9Externals : Externals :=
  { idExternals with soup := c9soup, setIterScripts := List.reverse }

def c9zip : Zip :=
  ⟨"w.crx", [("a.htm", "H1"), ("b.htm", "H2"), ("a.js", "AA"), ("b.js", "BB")]⟩

def c9manifest : Manifest :=
  ⟨some 3, false, [], none, some [.entry ⟨some ["*.htm"]⟩]⟩

/-- C9 counterexample: the v3 wars scripts are discovered in the order
`a.js`, `b.js`, but the bundle handed to `pack_and_beautify` is the
`set` iteration order — here the reversal, which CPython's unordered
`set` is free to produce — so the emitted sequence does not preserve
insertion order. -/
theorem claim_c9_counterexample :
    (warScanFold c9Externals c9zip
        (war_v3_scanned c9Externals c9manifest c9zip)).1 = ["a.js", "b.js"] ∧
      c9Externals.setIterScripts
        (warScanFold c9Externals c9zip
          (war_v3_scanned c9Externals c9manifest c9zip)).1 = ["b.js", "a.js"] ∧
      (["b.js", "a.js"] : List String) ≠ ["a.js", "b.js"] ∧
      get_wars_v3 c9Externals c9manifest c9zip =
        "// New file: b.js\nBB\n// New file: a.js\nAA\n" :=
  ⟨by decide, by decide, by decide, by decide⟩

/-- Witness for the amended C9 theorem at concrete inputs. -/
theorem claim_c9_amended_witness :
    ((content_scripts_list [CSEntry.dict ["a.js", "b.js", "a.js"]]).Nodup ∧
        (content_scripts_list [CSEntry.dict ["a.js", "b.js", "a.js"]]).Sublist
          (jsLists [CSEntry.dict ["a.js", "b.js", "a.js"]])) ∧
      ((background_v2_scripts idExternals c1bg c1zip).Nodup ∧
        (background_v2_scripts idExternals c1bg c1zip).Sublist
          (background_v2_discovered idExternals c1bg c1zip)) ∧
      ((idExternals.setIterScripts
          (warScanFold idExternals c7zip
            (war_v3_scanned idExternals c7manifest c7zip)).1).Nodup ∧
        (idExternals.setIterScripts
            (warScanFold idExternals c7zip
              (war_v3_scanned idExternals c7manifest c7zip)).1).Perm
          (dedupAppend []
            (warDiscovered idExternals c7zip
              (war_v3_scanned idExternals c7manifest c7zip)))) :=
  ⟨(claim_c9_amended idExternals (fun l => List.Perm.refl l)).1
      [CSEntry.dict ["a.js", "b.js", "a.js"]],
    (claim_c9_amended idExternals (fun l => List.Perm.refl l)).2.1 c1bg c1zip,
    (claim_c9_amended idExternals (fun l => List.Perm.refl l)).2.2.1
      c7manifest c7zip⟩

/-! ## Claims C2 and C8: the producer/consumer distributor -/

theorem lt_of_getQ_eq_some {α : Type} {l : List α} {i : Nat} {x : α}
    (h : l.get? i = some x) : i < l.length := by
  by_contra hlt
  rw [List.get?_eq_none.mpr (Nat.le_of_not_lt hlt)] at h
  cases h

theorem mem_set_self {α : Type} {l : List α} {i : Nat} (h : i < l.length)
    (x : α) : x ∈ l.set i x :=
  List.get?_mem (List.get?_set_eq_of_lt x h)

theorem countP_set_add {α : Type} {l : List α} {i : Nat} {st : α}
    (h : l.get? i = some st) (x : α) (p : α → Bool) :
    (l.set i x).countP p + (if p st then 1 else 0) =
      l.countP p + (if p x then 1 else 0) := by
  induction l generalizing i with
  | nil => cases h
  | cons a as ih =>
    cases i with
    | zero =>
      simp only [List.get?] at h
      injection h with h
      subst h
      simp only [List.set]
      rw [List.countP_cons, List.countP_cons]
      omega
    | succ n =>
      simp only [List.get?] at h
      simp only [List.set]
      rw [List.countP_cons, List.countP_cons]
      have := ih h
      omega

theorem singleton_getQ_eq {α : Type} {a b : α} {i : Nat}
    (h : ([a] : List α).get? i = some b) : a = b ∧ i = 0 := by
  cases i with
  | zero =>
    simp only [List.get?] at h
    injection h with h
    exact ⟨h, rfl⟩
  | succ n => simp [List.get?] at h

/-- The distributor invariant for any pool size.  The queue is some
jobs followed by the sentinel exactly when the producer has sent it;
the counter plus the number of consumers inside an iteration plus the
queued and unproduced jobs never exceeds the job total (increments can
be lost, never invented); every pending counter-write value obeys the
same bound; no consumer terminates before the sentinel is sent; after
the sentinel is sent nothing remains to produce; the pool is
non-empty; and once every consumer has terminated no job remains
queued. -/
def DistInv (α : Type) (M : Nat) (s : DistState α) : Prop :=
  ∃ js : List α,
    s.queue = js.map some ++ (if s.sentinelSent then [none] else []) ∧
    s.counter + phaseCount s.consumers + js.length + s.pending.length ≤ M ∧
    (∀ v : Nat, CState.readv v ∈ s.consumers →
      v + phaseCount s.consumers + js.length + s.pending.length ≤ M) ∧
    (s.sentinelSent = false → ∀ st ∈ s.consumers, st ≠ CState.done) ∧
    (s.sentinelSent = true → s.pending = []) ∧
    0 < s.consumers.length ∧
    ((∀ st ∈ s.consumers, st = CState.done) → js = [])

theorem distInv_init (α : Type) (jobs : List α) (N : Nat) (hN : 0 < N) :
    DistInv α jobs.length (initState α jobs N) := by
  have hp : phaseCount (List.replicate N CState.idle) = 0 := by
    rw [phaseCount, List.countP_eq_zero]
    intro a ha
    rw [List.eq_of_mem_replicate ha]
    simp [midJob]
  refine ⟨[], ?_, ?_, ?_, ?_, ?_, ?_, ?_⟩
  · simp [initState]
  · simp [initState, hp]
  · intro v hv
    have := List.eq_of_mem_replicate hv
    simp at this
  · intro _ st hst
    rw [List.eq_of_mem_replicate hst]
    decide
  · intro h
    simp [initState] at h
  · simpa [initState] using hN
  · intro _
    rfl

theorem distInv_step {α : Type} {M : Nat} {s s' : DistState α}
    (hstep : DStep α s s') (hinv : DistInv α M s) : DistInv α M s' := by
  obtain ⟨js, hq, hcnt, hread, hnd, hpend, hlen, hdone⟩ := hinv
  have hall_absurd : ∀ r : List CState, 0 < r.length →
      (∀ st ∈ r, st ≠ CState.done) → ¬ (∀ st ∈ r, st = CState.done) := by
    intro r hr h1 h2
    cases r with
    | nil => simp at hr
    | cons st0 rest0 =>
      exact h1 st0 (List.mem_cons_self st0 rest0)
        (h2 st0 (List.mem_cons_self st0 rest0))
  cases hstep with
  | prodJob j rest q c r =>
    dsimp only at hq hcnt hread hnd hpend hlen hdone ⊢
    simp only [if_neg Bool.false_ne_true, List.append_nil] at hq
    refine ⟨js ++ [j], ?_, ?_, ?_, ?_, ?_, hlen, ?_⟩
    · simp only [if_neg Bool.false_ne_true, List.append_nil, List.map_append,
        List.map_cons, List.map_nil]
      rw [hq]
    · simp only [List.length_append, List.length_cons,
        List.length_singleton, List.length_nil] at hcnt ⊢
      omega
    · intro v hv
      have := hread v hv
      simp only [List.length_append, List.length_cons,
        List.length_singleton, List.length_nil] at this ⊢
      omega
    · intro _ st hst
      exact hnd rfl st hst
    · intro h
      cases h
    · intro hall
      exact absurd hall (hall_absurd r hlen (hnd rfl))
  | prodSent q c r =>
    dsimp only at hq hcnt hread hnd hpend hlen hdone ⊢
    simp only [if_neg Bool.false_ne_true, List.append_nil] at hq
    refine ⟨js, ?_, ?_, ?_, ?_, ?_, hlen, ?_⟩
    · rw [hq]
      simp
    · simp only [List.length_nil] at hcnt ⊢
      omega
    · intro v hv
      have := hread v hv
      simp only [List.length_nil] at this ⊢
      omega
    · intro h
      cases h
    · intro _
      rfl
    · intro hall
      exact absurd hall (hall_absurd r hlen (hnd rfl))
  | consDeq p sb j q c r i hi =>
    dsimp only at hq hcnt hread hnd hpend hlen hdone ⊢
    cases js with
    | nil =>
      exfalso
      cases hsb : sb <;> rw [hsb] at hq <;> simp at hq
    | cons j0 js' =>
      simp only [List.map_cons, List.cons_append, List.cons.injEq,
        Option.some.injEq] at hq
      obtain ⟨hj0, hq'⟩ := hq
      have hlt := lt_of_getQ_eq_some hi
      have hcp := countP_set_add hi CState.got midJob
      simp [midJob] at hcp
      refine ⟨js', hq', ?_, ?_, ?_, hpend, by simpa using hlen, ?_⟩
      · simp only [phaseCount] at hcnt ⊢
        simp only [List.length_cons] at hcnt
        omega
      · intro v hv
        rcases List.mem_or_eq_of_mem_set hv with hv' | hv'
        · have := hread v hv'
          simp only [phaseCount, List.length_cons] at this ⊢
          omega
        · cases hv'
      · intro hsb st hst
        rcases List.mem_or_eq_of_mem_set hst with hst' | hst'
        · exact hnd hsb st hst'
        · subst hst'
          decide
      · intro hall
        exfalso
        have := hall CState.got (mem_set_self hlt CState.got)
        cases this
  | consRead p sb q c r i hi =>
    dsimp only at hq hcnt hread hnd hpend hlen hdone ⊢
    have hlt := lt_of_getQ_eq_some hi
    have hcp := countP_set_add hi (CState.readv c) midJob
    simp [midJob] at hcp
    refine ⟨js, hq, ?_, ?_, ?_, hpend, by simpa using hlen, ?_⟩
    · simp only [phaseCount] at hcnt ⊢
      omega
    · intro v hv
      rcases List.mem_or_eq_of_mem_set hv with hv' | hv'
      · have := hread v hv'
        simp only [phaseCount] at this ⊢
        omega
      · injection hv' with hv''
        subst hv''
        simp only [phaseCount] at hcnt ⊢
        omega
    · intro hsb st hst
      rcases List.mem_or_eq_of_mem_set hst with hst' | hst'
      · exact hnd hsb st hst'
      · subst hst'
        intro hcontra
        cases hcontra
    · intro hall
      exfalso
      have := hall (CState.readv c) (mem_set_self hlt (CState.readv c))
      cases this
  | consWrite p sb q c r i v hi =>
    dsimp only at hq hcnt hread hnd hpend hlen hdone ⊢
    have hlt := lt_of_getQ_eq_some hi
    have hcp := countP_set_add hi CState.idle midJob
    simp [midJob] at hcp
    have hbound := hread v (List.get?_mem hi)
    refine ⟨js, hq, ?_, ?_, ?_, hpend, by simpa using hlen, ?_⟩
    · simp only [phaseCount] at hbound hcp ⊢
      omega
    · intro w hw
      rcases List.mem_or_eq_of_mem_set hw with hw' | hw'
      · have := hread w hw'
        simp only [phaseCount] at this hcp ⊢
        omega
      · cases hw'
    · intro hsb st hst
      rcases List.mem_or_eq_of_mem_set hst with hst' | hst'
      · exact hnd hsb st hst'
      · subst hst'
        decide
    · intro hall
      exfalso
      have := hall CState.idle (mem_set_self hlt CState.idle)
      cases this
  | consSent p sb q c r i hi =>
    dsimp only at hq hcnt hread hnd hpend hlen hdone ⊢
    have hjs : js = [] := by
      cases js with
      | nil => rfl
      | cons j0 js' =>
        simp only [List.map_cons, List.cons_append, List.cons.injEq] at hq
        cases hq.1
    subst hjs
    simp only [List.map_nil, List.nil_append, List.length_nil] at hq hcnt hread
    have hsb : sb = true := by
      cases hsbc : sb
      · rw [hsbc] at hq
        simp at hq
      · rfl
    subst hsb
    simp only [if_true, List.cons.injEq, true_and] at hq
    have hq0 : q = [] := by simpa using hq
    subst hq0
    have hlt := lt_of_getQ_eq_some hi
    have hcp := countP_set_add hi CState.done midJob
    simp [midJob] at hcp
    refine ⟨[], by simp, ?_, ?_, ?_, ?_, by simpa using hlen, fun _ => rfl⟩
    · simp only [phaseCount, List.length_nil] at hcnt ⊢
      omega
    · intro w hw
      rcases List.mem_or_eq_of_mem_set hw with hw' | hw'
      · have := hread w hw'
        simp only [phaseCount, List.length_nil] at this ⊢
        omega
      · cases hw'
    · intro h
      simp at h
    · intro _
      exact hpend rfl

theorem distInv_reaches {α : Type} (jobs : List α) (N : Nat) (hN : 0 < N)
    {s : DistState α} (h : Reaches α (initState α jobs N) s) :
    DistInv α jobs.length s := by
  induction h with
  | refl => exact distInv_init α jobs N hN
  | tail _ hstep ih => exact distInv_step hstep ih

/-- The single-consumer invariant: with exactly one consumer there is
no concurrent read-modify-write, so the counter tracks the dequeued
jobs exactly, offset by one while the consumer is inside an
iteration. -/
def Inv1 {α : Type} (M : Nat) (s : DistState α) : Prop :=
  ∃ js : List α,
    s.queue = js.map some ++ (if s.sentinelSent then [none] else []) ∧
    (s.sentinelSent = false → ∀ st ∈ s.consumers, st ≠ CState.done) ∧
    (s.sentinelSent = true → s.pending = []) ∧
    (∃ st : CState, s.consumers = [st]) ∧
    (s.consumers = [CState.idle] →
      s.counter + js.length + s.pending.length = M) ∧
    (s.consumers = [CState.got] →
      s.counter + 1 + js.length + s.pending.length = M) ∧
    (∀ v : Nat, s.consumers = [CState.readv v] →
      v = s.counter ∧ s.counter + 1 + js.length + s.pending.length = M) ∧
    (s.consumers = [CState.done] →
      s.counter + js.length + s.pending.length = M ∧ js = [])

theorem inv1_init (α : Type) (jobs : List α) :
    Inv1 jobs.length (initState α jobs 1) := by
  refine ⟨[], ?_, ?_, ?_, ⟨CState.idle, rfl⟩, ?_, ?_, ?_, ?_⟩
  · simp [initState]
  · intro _ st hst
    rw [List.mem_singleton.mp hst]
    decide
  · intro h
    simp [initState] at h
  · intro _
    simp [initState]
  · intro h
    simp [initState] at h
  · intro v h
    exfalso
    simp [initState] at h
  · intro h
    simp [initState] at h

theorem inv1_step {α : Type} {M : Nat} {s s' : DistState α}
    (hstep : DStep α s s') (hinv : Inv1 M s) : Inv1 M s' := by
  obtain ⟨js, hq, hnd, hpend, ⟨st0, hshape⟩, hidle, hgot, hreadv, hdn⟩ := hinv
  cases hstep with
  | prodJob j rest q c r =>
    dsimp only at hq hnd hpend hshape hidle hgot hreadv hdn ⊢
    simp only [if_neg Bool.false_ne_true, List.append_nil] at hq
    refine ⟨js ++ [j], ?_, ?_, ?_, ⟨st0, hshape⟩, ?_, ?_, ?_, ?_⟩
    · simp only [if_neg Bool.false_ne_true, List.append_nil, List.map_append,
        List.map_cons, List.map_nil]
      rw [hq]
    · intro _ st hst
      exact hnd rfl st hst
    · intro h
      cases h
    · intro h
      have := hidle h
      simp only [List.length_append, List.length_cons,
        List.length_singleton, List.length_nil] at this ⊢
      omega
    · intro h
      have := hgot h
      simp only [List.length_append, List.length_cons,
        List.length_singleton, List.length_nil] at this ⊢
      omega
    · intro v h
      obtain ⟨h1, h2⟩ := hreadv v h
      refine ⟨h1, ?_⟩
      simp only [List.length_append, List.length_cons,
        List.length_singleton, List.length_nil] at h2 ⊢
      omega
    · intro h
      exfalso
      have h' : r = [CState.done] := h
      exact hnd rfl CState.done
        (by rw [h']; exact List.mem_singleton.mpr rfl) rfl
  | prodSent q c r =>
    dsimp only at hq hnd hpend hshape hidle hgot hreadv hdn ⊢
    simp only [if_neg Bool.false_ne_true, List.append_nil] at hq
    refine ⟨js, ?_, ?_, ?_, ⟨st0, hshape⟩, ?_, ?_, ?_, ?_⟩
    · rw [hq]
      simp
    · intro h
      cases h
    · intro _
      rfl
    · intro h
      have := hidle h
      simp only [List.length_nil] at this ⊢
      omega
    · intro h
      have := hgot h
      simp only [List.length_nil] at this ⊢
      omega
    · intro v h
      obtain ⟨h1, h2⟩ := hreadv v h
      refine ⟨h1, ?_⟩
      simp only [List.length_nil] at h2 ⊢
      omega
    · intro h
      exfalso
      have h' : r = [CState.done] := h
      exact hnd rfl CState.done
        (by rw [h']; exact List.mem_singleton.mpr rfl) rfl
  | consDeq p sb j q c r i hi =>
    dsimp only at hq hnd hpend hshape hidle hgot hreadv hdn ⊢
    subst hshape
    obtain ⟨hst0, hi0⟩ := singleton_getQ_eq hi
    subst hst0
    subst hi0
    cases js with
    | nil =>
      exfalso
      cases hsb : sb <;> rw [hsb] at hq <;> simp at hq
    | cons j0 js' =>
      simp only [List.map_cons, List.cons_append, List.cons.injEq,
        Option.some.injEq] at hq
      obtain ⟨hj0, hq'⟩ := hq
      have heq := hidle rfl
      refine ⟨js', hq', ?_, hpend, ⟨CState.got, rfl⟩, ?_, ?_, ?_, ?_⟩
      · intro hsb st hst
        rw [List.mem_singleton.mp hst]
        decide
      · intro h
        simp at h
      · intro _
        dsimp only
        simp only [List.length_cons] at heq
        omega
      · intro v h
        exfalso
        simp at h
      · intro h
        simp at h
  | consRead p sb q c r i hi =>
    dsimp only at hq hnd hpend hshape hidle hgot hreadv hdn ⊢
    subst hshape
    obtain ⟨hst0, hi0⟩ := singleton_getQ_eq hi
    subst hst0
    subst hi0
    have heq := hgot rfl
    refine ⟨js, hq, ?_, hpend, ⟨CState.readv c, rfl⟩, ?_, ?_, ?_, ?_⟩
    · intro hsb st hst
      rw [List.mem_singleton.mp hst]
      intro hcontra
      cases hcontra
    · intro h
      exfalso
      simp at h
    · intro h
      exfalso
      simp at h
    · intro v h
      have hv : CState.readv c = CState.readv v := by
        have := List.cons.injEq (CState.readv c) [] (CState.readv v) [] ▸ h
        simp at h
        exact h ▸ rfl
      injection hv with hv'
      subst hv'
      exact ⟨rfl, heq⟩
    · intro h
      exfalso
      simp at h
  | consWrite p sb q c r i v hi =>
    dsimp only at hq hnd hpend hshape hidle hgot hreadv hdn ⊢
    subst hshape
    obtain ⟨hst0, hi0⟩ := singleton_getQ_eq hi
    subst hi0
    obtain ⟨hvc, heq⟩ := hreadv v (by rw [← hst0])
    refine ⟨js, hq, ?_, hpend, ⟨CState.idle, rfl⟩, ?_, ?_, ?_, ?_⟩
    · intro hsb st hst
      rw [List.mem_singleton.mp hst]
      decide
    · intro _
      dsimp only
      omega
    · intro h
      exfalso
      simp at h
    · intro w h
      exfalso
      simp at h
    · intro h
      simp at h
  | consSent p sb q c r i hi =>
    dsimp only at hq hnd hpend hshape hidle hgot hreadv hdn ⊢
    subst hshape
    obtain ⟨hst0, hi0⟩ := singleton_getQ_eq hi
    subst hst0
    subst hi0
    have hjs : js = [] := by
      cases js with
      | nil => rfl
      | cons j0 js' =>
        simp only [List.map_cons, List.cons_append, List.cons.injEq] at hq
        cases hq.1
    subst hjs
    simp only [List.map_nil, List.nil_append] at hq
    have hsb : sb = true := by
      cases hsbc : sb
      · rw [hsbc] at hq
        simp at hq
      · rfl
    subst hsb
    simp only [if_true, List.cons.injEq, true_and] at hq
    have hq0 : q = [] := by simpa using hq
    subst hq0
    have heq := hidle rfl
    have hpe := hpend rfl
    refine ⟨[], by simp, ?_, fun _ => hpe, ⟨CState.done, rfl⟩, ?_, ?_, ?_, ?_⟩
    · intro h
      simp at h
    · intro h
      simp at h
    · intro h
      simp at h
    · intro v h
      exfalso
      simp at h
    · intro _
      dsimp only
      rw [hpe] at heq
      simp only [List.length_nil] at heq
      refine ⟨?_, rfl⟩
      rw [hpe]
      simp only [List.length_nil]
      omega

theorem inv1_reaches {α : Type} (jobs : List α) {s : DistState α}
    (h : Reaches α (initState α jobs 1) s) : Inv1 jobs.length s := by
  induction h with
  | refl => exact inv1_init α jobs
  | tail _ hstep ih => exact inv1_step hstep ih

/-- C2 amended: after a run in which all processes have joined, a
single consumer's counter equals exactly M, the number of discovered
jobs, whether or not each job passed manifest validation; with any
pool size the counter never exceeds M, but because
`counter.value += 1` is a non-atomic read-modify-write, concurrent
consumers can lose increments — witnessed by the third conjunct, a
two-consumer run over two jobs that joins with the counter at 1. -/
theorem claim_c2_counter_amended (α : Type) :
    (∀ (jobs : List α) (s : DistState α),
        Reaches α (initState α jobs 1) s → allJoined s →
        s.counter = jobs.length) ∧
      (∀ (jobs : List α) (N : Nat) (s : DistState α), 0 < N →
        Reaches α (initState α jobs N) s → allJoined s →
        s.counter ≤ jobs.length) ∧
      (Reaches Nat (initState Nat [1, 2] 2)
          ⟨[], true, [none], 1, [CState.done, CState.done]⟩ ∧
        allJoined
          (⟨[], true, [none], 1,
            [CState.done, CState.done]⟩ : DistState Nat) ∧
        (⟨[], true, [none], 1,
            [CState.done, CState.done]⟩ : DistState Nat).counter = 1 ∧
        (1 : Nat) < ([1, 2] : List Nat).length) := by
  refine ⟨?_, ?_, ?_, ?_, ?_, ?_⟩
  · intro jobs s hreach hjoin
    obtain ⟨js, _, _, _, ⟨st0, hshape⟩, _, _, _, hdn⟩ := inv1_reaches jobs hreach
    obtain ⟨hpendj, _, hall⟩ := hjoin
    have hst0 : st0 = CState.done := hall st0 (by rw [hshape]; exact List.mem_singleton.mpr rfl)
    subst hst0
    obtain ⟨heq, hjs⟩ := hdn hshape
    subst hjs
    rw [hpendj] at heq
    simpa using heq
  · intro jobs N s hN hreach hjoin
    obtain ⟨js, _, hcnt, _, _, _, _, hdone⟩ := distInv_reaches jobs N hN hreach
    obtain ⟨hpendj, _, hall⟩ := hjoin
    have hjs : js = [] := hdone hall
    subst hjs
    have hp : phaseCount s.consumers = 0 := by
      rw [phaseCount, List.countP_eq_zero]
      intro a ha
      rw [hall a ha]
      simp [midJob]
    rw [hpendj, hp] at hcnt
    simpa using hcnt
  · apply Relation.ReflTransGen.head (DStep.prodJob 1 [2] [] 0
      [CState.idle, CState.idle])
    apply Relation.ReflTransGen.head (DStep.prodJob 2 [] [some 1] 0
      [CState.idle, CState.idle])
    apply Relation.ReflTransGen.head (DStep.prodSent [some 1, some 2] 0
      [CState.idle, CState.idle])
    apply Relation.ReflTransGen.head (DStep.consDeq [] true 1 [some 2, none] 0
      [CState.idle, CState.idle] 0 rfl)
    apply Relation.ReflTransGen.head (DStep.consDeq [] true 2 [none] 0
      [CState.got, CState.idle] 1 rfl)
    apply Relation.ReflTransGen.head (DStep.consRead [] true [none] 0
      [CState.got, CState.got] 0 rfl)
    apply Relation.ReflTransGen.head (DStep.consRead [] true [none] 0
      [CState.readv 0, CState.got] 1 rfl)
    apply Relation.ReflTransGen.head (DStep.consWrite [] true [none] 0
      [CState.readv 0, CState.readv 0] 0 0 rfl)
    apply Relation.ReflTransGen.head (DStep.consWrite [] true [none] 1
      [CState.idle, CState.readv 0] 1 0 rfl)
    apply Relation.ReflTransGen.head (DStep.consSent [] true [] 1
      [CState.idle, CState.idle] 0 rfl)
    apply Relation.ReflTransGen.head (DStep.consSent [] true [] 1
      [CState.done, CState.idle] 1 rfl)
    exact Relation.ReflTransGen.refl
  · exact ⟨rfl, rfl, by decide⟩
  · rfl
  · decide

/-- The run of the distributor on one discovered job with one
consumer, ending with all processes joined and the counter at 1. -/
theorem c2_run_reaches :
    Reaches String (initState String ["bad.crx"] 1)
      ⟨[], true, [none], 1, [CState.done]⟩ := by
  apply Relation.ReflTransGen.head
    (DStep.prodJob "bad.crx" [] [] 0 [CState.idle])
  apply Relation.ReflTransGen.head
    (DStep.prodSent [some "bad.crx"] 0 [CState.idle])
  apply Relation.ReflTransGen.head
    (DStep.consDeq [] true "bad.crx" [none] 0 [CState.idle] 0 rfl)
  apply Relation.ReflTransGen.head
    (DStep.consRead [] true [none] 0 [CState.got] 0 rfl)
  apply Relation.ReflTransGen.head
    (DStep.consWrite [] true [none] 0 [CState.readv 0] 0 0 rfl)
  apply Relation.ReflTransGen.head
    (DStep.consSent [] true [] 1 [CState.idle] 0 rfl)
  exact Relation.ReflTransGen.refl

/-- C2 counterexample: a single discovered archive that fails manifest
validation (its archive does not even open, so `unpack_extension`
performs no effect) is still counted: the run joins with the counter
at 1, while the number of jobs that passed validation is 0. -/
theorem claim_c2_counterexample :
    Reaches String (initState String ["bad.crx"] 1)
        ⟨[], true, [none], 1, [CState.done]⟩ ∧
      allJoined (⟨[], true, [none], 1, [CState.done]⟩ : DistState String) ∧
      (⟨[], true, [none], 1, [CState.done]⟩ : DistState String).counter = 1 ∧
      unpack_extension idExternals "bad.crx" "d" = [] ∧
      (1 : Nat) ≠ 0 :=
  ⟨c2_run_reaches, ⟨rfl, rfl, by decide⟩, rfl, rfl, by decide⟩

/-- Witness for the amended C2 theorem: the single-consumer equality
on the concrete one-job run, and the upper bound on the concrete
two-consumer lost-update run. -/
theorem claim_c2_counter_amended_witness :
    (⟨[], true, [none], 1, [CState.done]⟩ : DistState String).counter =
        (["bad.crx"] : List String).length ∧
      (⟨[], true, [none], 1,
          [CState.done, CState.done]⟩ : DistState Nat).counter ≤
        ([1, 2] : List Nat).length :=
  ⟨(claim_c2_counter_amended String).1 ["bad.crx"]
      ⟨[], true, [none], 1, [CState.done]⟩ c2_run_reaches
      ⟨rfl, rfl, by decide⟩,
    (claim_c2_counter_amended Nat).2.1 [1, 2] 2
      ⟨[], true, [none], 1, [CState.done, CState.done]⟩ (by decide)
      (claim_c2_counter_amended Nat).2.2.1 ⟨rfl, rfl, by decide⟩⟩

/-- C8: the consumer loop processes queued jobs in order, incrementing
the counter once per job; it terminates only by dequeuing the
sentinel, which it re-enqueues exactly once at the back; with no
sentinel in the queue it never terminates (the blocking `get`); and at
distributor level a terminated consumer implies a sentinel is present
in the shared queue — no consumer exits without having re-enqueued the
sentinel it consumed. -/
theorem claim_c8_consumer_loop (α : Type) :
    (∀ (q : List (Option α)) (c : Nat) (res : List (Option α) × Nat),
        consumerRun q c = some res →
        ∃ (pre : List α) (post : List (Option α)),
          q = pre.map some ++ none :: post ∧
          res = (post ++ [none], c + pre.length)) ∧
      (∀ (q : List (Option α)) (c : Nat),
        none ∉ q → consumerRun q c = none) ∧
      (∀ (jobs : List α) (N : Nat) (s : DistState α), 0 < N →
        Reaches α (initState α jobs N) s →
        (∃ i, s.consumers.get? i = some CState.done) → none ∈ s.queue) := by
  refine ⟨?_, ?_, ?_⟩
  · intro q
    induction q with
    | nil => intro c res h; cases h
    | cons it rest ih =>
      intro c res h
      cases it with
      | none =>
        refine ⟨[], rest, by simp, ?_⟩
        simp only [consumerRun, Option.some.injEq] at h
        simp [← h]
      | some a =>
        obtain ⟨pre, post, hq, hres⟩ := ih (c + 1) res h
        refine ⟨a :: pre, post, ?_, ?_⟩
        · simp [hq]
        · rw [hres]
          simp only [List.length_cons, Prod.mk.injEq, true_and]
          omega
  · intro q
    induction q with
    | nil => intro c _; rfl
    | cons it rest ih =>
      intro c hmem
      cases it with
      | none => exact absurd (List.mem_cons_self none rest) hmem
      | some a =>
        exact ih (c + 1) (fun hin => hmem (List.mem_cons_of_mem _ hin))
  · intro jobs N s hN hreach ⟨i, hi⟩
    obtain ⟨js, hq, _, _, hnd, _, _, _⟩ := distInv_reaches jobs N hN hreach
    have hdone_mem : CState.done ∈ s.consumers := List.get?_mem hi
    have hsent : s.sentinelSent = true := by
      cases hsb : s.sentinelSent
      · exact absurd rfl (hnd hsb CState.done hdone_mem)
      · rfl
    rw [hq, hsent]
    simp

/-- Witness for C8 at a concrete queue and the concrete one-consumer
run. -/
theorem claim_c8_consumer_loop_witness :
    (∃ (pre : List String) (post : List (Option String)),
        ([some "a.crx", none, some "z"] : List (Option String)) =
            pre.map some ++ none :: post ∧
          (([some "z"] : List (Option String)) ++ [none], 0 + 1) =
            (post ++ [none], 0 + pre.length)) ∧
      consumerRun ([some "a.crx"] : List (Option String)) 0 = none ∧
      none ∈ (⟨[], true, [none], 1, [CState.done]⟩ : DistState String).queue :=
  ⟨by
      obtain ⟨pre, post, h1, h2⟩ :=
        (claim_c8_consumer_loop String).1 [some "a.crx", none, some "z"] 0
          ([some "z"] ++ [none], 1) rfl
      exact ⟨pre, post, h1, by simpa using h2⟩,
    (claim_c8_consumer_loop String).2.1 [some "a.crx"] 0 (by decide),
    (claim_c8_consumer_loop String).2.2 ["bad.crx"] 1
      ⟨[], true, [none], 1, [CState.done]⟩ (by decide) c2_run_reaches
      ⟨0, rfl⟩⟩

end DoubleX
